import Mathlib

set_option maxHeartbeats 1000000

/-!
Verification of the extraction-and-generation pipeline in
`bamcensus-acs/python/codegen.py`.

Strings are modelled as `List Char`.  The two regular expressions built in
`run` use only literal runs, the greedy classes `.*`, `\w+`, `[\w:! ]+` and
two capture groups, so the Python matcher is embedded as a small
backtracking engine (`mtch`) over exactly that fragment, together with the
left-to-right non-overlapping scan of `re.findall` (`findall`).
-/

/-- Word characters, as matched by the regex class backslash-w restricted to
ASCII: letters, digits and the underscore. -/
def isWordChar (c : Char) : Bool := c.isAlphanum || c == '_'

/-- Characters admitted by the label class of the source, name_pat = "[\w:! ]". -/
def isNameChar (c : Char) : Bool := isWordChar c || c == ':' || c == '!' || c == ' '

/-- Character classes occurring in the two source regular expressions. -/
inductive CharCls where
  | dot
  | word
  | nameCls
deriving DecidableEq

/-- Membership in a character class; `.` matches anything except a newline. -/
def memCls : CharCls → Char → Bool
  | .dot, c => !(c == '\n')
  | .word, c => isWordChar c
  | .nameCls, c => isNameChar c

/-- Abstract syntax of the regex fragment used by the source: literal runs,
greedy star and plus of a single character class, concatenation, and numbered
capture groups. -/
inductive RE where
  | str (l : List Char)
  | starC (k : CharCls)
  | plusC (k : CharCls)
  | seq (a b : RE)
  | group (i : Nat) (r : RE)

/-- Result of a match attempt: the remaining input after the match together
with the list of captured groups. -/
abbrev MRes := List Char × List (Nat × List Char)

/-- Length of the maximal run of characters of class `k` at the head of `s`. -/
def clsRun (k : CharCls) (s : List Char) : Nat := (s.takeWhile (memCls k)).length

/-- Greedy star: try consuming `n` characters first, then back off one at a
time down to zero, returning the first success of the continuation. -/
def starLoop (s : List Char) (k : List Char → Option MRes) : Nat → Option MRes
  | 0 => k s
  | n+1 =>
    match k (s.drop (n+1)) with
    | some r => some r
    | none => starLoop s k n

/-- Greedy plus: like `starLoop` but at least one character must be consumed. -/
def plusLoop (s : List Char) (k : List Char → Option MRes) : Nat → Option MRes
  | 0 => none
  | n+1 =>
    match k (s.drop (n+1)) with
    | some r => some r
    | none => plusLoop s k n

/-- Backtracking matcher in continuation style, faithful to the leftmost /
greedy semantics of the Python `re` engine on this regex fragment. -/
def mtch : RE → List Char → (List Char → Option MRes) → Option MRes
  | .str l, s, k => if l.isPrefixOf s then k (s.drop l.length) else none
  | .starC c, s, k => starLoop s k (clsRun c s)
  | .plusC c, s, k => plusLoop s k (clsRun c s)
  | .seq a b, s, k => mtch a s (fun t => mtch b t k)
  | .group i r, s, k =>
    mtch r s (fun t => (k t).map (fun res => (res.1, (i, s.take (s.length - t.length)) :: res.2)))

/-- Attempt to match pattern `p` at the start of `s`; on success return the
remaining input and the captured groups. -/
def mtchTop (p : RE) (s : List Char) : Option MRes := mtch p s (fun t => some (t, []))

/-- One left-to-right scan of the input, collecting all non-overlapping
matches as `re.findall` does: on failure advance one character, on success
continue at the end of the match (fuel-structured so that it computes). -/
def scanFuel (p : RE) : Nat → List Char → List (List (Nat × List Char))
  | 0, _ => []
  | fuel+1, s =>
    match mtchTop p s with
    | some (rest, caps) =>
      if rest.length < s.length then caps :: scanFuel p fuel rest
      else
        match s with
        | [] => [caps]
        | _ :: t => caps :: scanFuel p fuel t
    | none =>
      match s with
      | [] => []
      | _ :: t => scanFuel p fuel t

/-- Pair of the two capture groups, as `re.findall` returns for a pattern
with two groups. -/
def capsToPair (caps : List (Nat × List Char)) : List Char × List Char :=
  ((caps.lookup 1).getD [], (caps.lookup 2).getD [])

/-- The model of `re.findall(pattern, contents)` for the source's patterns. -/
def findall (p : RE) (s : List Char) : List (List Char × List Char) :=
  (scanFuel p (s.length + 1) s).map capsToPair

/-- The literal `" name="` between the two `.*` holes of the pattern. -/
def nameLit : List Char := "\" name=\"".data

/-- The literal `">` closing the anchor opening tag. -/
def gtLit : List Char := "\">".data

/-- The literal `</td>` closing a cell. -/
def tdLit : List Char := "</td>".data

/-- Capture group 1 of the source pattern: `(\w+_\w+)`. -/
def grp1 : RE := .group 1 (.seq (.plusC .word) (.seq (.str ['_']) (.plusC .word)))

/-- Capture group 2 of the source pattern: `([\w:! ]+)`. -/
def grp2 : RE := .group 2 (.plusC .nameCls)

/-- Tail segments of the pattern, from the last literal outwards; the two
source patterns differ only in the literals `pre` and `mid`. -/
def patTail : RE := .str tdLit

/-- Pattern suffix starting at group 2. -/
def patGrp2 : RE := .seq grp2 patTail

/-- Pattern suffix starting at the mid literal (between the two cells). -/
def patMid (mid : List Char) : RE := .seq (.str mid) patGrp2

/-- Pattern suffix starting at group 1. -/
def patGrp1 (mid : List Char) : RE := .seq grp1 (patMid mid)

/-- Pattern suffix starting at the literal `">`. -/
def patGt (mid : List Char) : RE := .seq (.str gtLit) (patGrp1 mid)

/-- Pattern suffix starting at the second `.*`. -/
def patStar2 (mid : List Char) : RE := .seq (.starC .dot) (patGt mid)

/-- Pattern suffix starting at the literal `" name="`. -/
def patName (mid : List Char) : RE := .seq (.str nameLit) (patStar2 mid)

/-- Pattern suffix starting at the first `.*`. -/
def patStar1 (mid : List Char) : RE := .seq (.starC .dot) (patName mid)

/-- The whole row pattern, parameterized by its two varying literals. -/
def mkPattern (pre mid : List Char) : RE := .seq (.str pre) (patStar1 mid)

/-- Leading literal of the indent-0 pattern. -/
def pre0 : List Char := "<tr><td><a href=\"variables/".data

/-- Mid literal of the indent-0 pattern. -/
def mid0 : List Char := "</a></td><td>".data

/-- The separator `sep = " " * args.indent` built in `run`. -/
def sepOf (n : Nat) : List Char := List.replicate n ' '

/-- Leading literal of the positive-indent pattern. -/
def preW (n : Nat) : List Char := "<tr>\n".data ++ sepOf n ++ "<td><a href=\"variables/".data

/-- Mid literal of the positive-indent pattern. -/
def midW (n : Nat) : List Char := "</a></td>\n".data ++ sepOf n ++ "<td>".data

/-- The pattern built by `run` from `args.indent`. -/
def acsPattern (indent : Nat) : RE :=
  if indent = 0 then mkPattern pre0 mid0 else mkPattern (preW indent) (midW indent)

/-- Python `s.replace(old, new)` on character lists: scan left to right,
replacing each non-overlapping occurrence of `old`, fuel-structured (the fuel
`s.length` suffices for every non-empty `old`). -/
def pyReplaceFuel (old new : List Char) : Nat → List Char → List Char
  | 0, s => s
  | _+1, [] => []
  | f+1, a :: t =>
    if old.isPrefixOf (a :: t) then new ++ pyReplaceFuel old new f ((a :: t).drop old.length)
    else a :: pyReplaceFuel old new f t

/-- Python `s.replace(old, new)`. -/
def pyReplace (old new s : List Char) : List Char := pyReplaceFuel old new s.length s

/-- The normalizer `to_name_path` of the source:
`name.lower().replace("!!", ".").replace(":", "").replace(" ", "_")`. -/
def to_name_path (name : List Char) : List Char :=
  pyReplace [' '] ['_'] (pyReplace [':'] [] (pyReplace ['!', '!'] ['.'] (name.map Char.toLower)))

/-- Modelled from the spec: replace every occurrence of the two-character
sequence `!!` by a dot, written as a direct recursion for comparison with the
source's chained `replace`. -/
def replBang : List Char → List Char
  | [] => []
  | [a] => [a]
  | a :: b :: t => if a = '!' ∧ b = '!' then '.' :: replBang t else a :: replBang (b :: t)

/-- Modelled from the spec: lowercase, turn `!!` into `.`, drop every colon,
turn every space into an underscore, in that order. -/
def normalizeSpec (s : List Char) : List Char :=
  ((replBang (s.map Char.toLower)).filter (fun c => !(c == ':'))).map
    (fun c => if c = ' ' then '_' else c)

/-- Does the list contain two adjacent exclamation marks? -/
def hasDoubleBang : List Char → Bool
  | [] => false
  | [_] => false
  | a :: b :: t => if a = '!' ∧ b = '!' then true else hasDoubleBang (b :: t)

theorem toLower_cases (c : Char) :
    Char.toLower c = c ∨ (97 ≤ (Char.toLower c).toNat ∧ (Char.toLower c).toNat ≤ 122) := by
  unfold Char.toLower
  simp only []
  by_cases h : c.toNat ≥ 65 ∧ c.toNat ≤ 90
  · rw [if_pos h]
    right
    have hv : (c.toNat + 32).isValidChar := by
      constructor
      omega
    rw [Char.ofNat, dif_pos hv]
    have : (Char.ofNatAux (c.toNat + 32) hv).toNat = c.toNat + 32 := by
      simp [Char.ofNatAux, Char.toNat, UInt32.toNat]
    rw [this]
    omega
  · rw [if_neg h]
    left
    rfl

theorem toLower_eq_special {c d : Char} (hd : d.toNat < 97) (h : Char.toLower c = d) :
    c = d := by
  rcases toLower_cases c with h1 | h1
  · rw [← h1, h]
  · rw [h] at h1
    omega

theorem pyReplaceFuel_nil (old new : List Char) (f : Nat) : pyReplaceFuel old new f [] = [] := by
  cases f <;> simp [pyReplaceFuel]

theorem pyReplaceFuel_colon (f : Nat) : ∀ s : List Char, s.length ≤ f →
    pyReplaceFuel [':'] [] f s = s.filter (fun c => !(c == ':')) := by
  induction f with
  | zero =>
    intro s hs
    rw [List.length_eq_zero.mp (Nat.le_zero.mp hs)]
    simp [pyReplaceFuel]
  | succ f ih =>
    intro s hs
    cases s with
    | nil => simp [pyReplaceFuel]
    | cons a t =>
      have ht : t.length ≤ f := by simp at hs; omega
      rw [List.filter_cons]
      simp only [pyReplaceFuel, List.isPrefixOf, List.isPrefixOf_nil_left, Bool.and_true]
      by_cases h : a = ':'
      · subst h
        simp [ih t ht]
      · rw [if_neg (by simp only [beq_iff_eq]; intro hc; exact h hc.symm),
          if_pos (by simp [h]), ih t ht]

theorem pyReplaceFuel_space (f : Nat) : ∀ s : List Char, s.length ≤ f →
    pyReplaceFuel [' '] ['_'] f s = s.map (fun c => if c = ' ' then '_' else c) := by
  induction f with
  | zero =>
    intro s hs
    rw [List.length_eq_zero.mp (Nat.le_zero.mp hs)]
    simp [pyReplaceFuel]
  | succ f ih =>
    intro s hs
    cases s with
    | nil => simp [pyReplaceFuel]
    | cons a t =>
      have ht : t.length ≤ f := by simp at hs; omega
      rw [List.map_cons]
      simp only [pyReplaceFuel, List.isPrefixOf, List.isPrefixOf_nil_left, Bool.and_true]
      by_cases h : a = ' '
      · subst h
        simp [ih t ht]
      · rw [if_neg (by simp only [beq_iff_eq]; intro hc; exact h hc.symm),
          if_neg h, ih t ht]

theorem pyReplaceFuel_bang (f : Nat) : ∀ s : List Char, s.length ≤ f →
    pyReplaceFuel ['!', '!'] ['.'] f s = replBang s := by
  induction f with
  | zero =>
    intro s hs
    rw [List.length_eq_zero.mp (Nat.le_zero.mp hs)]
    simp [pyReplaceFuel, replBang]
  | succ f ih =>
    intro s hs
    cases s with
    | nil => simp [pyReplaceFuel, replBang]
    | cons a t =>
      cases t with
      | nil =>
        simp only [pyReplaceFuel, List.isPrefixOf, replBang]
        rw [if_neg (by simp), pyReplaceFuel_nil]
      | cons b u =>
        have hu : u.length ≤ f := by simp at hs; omega
        have hbu : (b :: u).length ≤ f := by simp at hs; simp; omega
        simp only [pyReplaceFuel, List.isPrefixOf, replBang, List.isPrefixOf_nil_left,
          Bool.and_true]
        by_cases h : a = '!' ∧ b = '!'
        · obtain ⟨h1, h2⟩ := h
          subst h1
          subst h2
          simp [ih u hu]
        · rw [if_neg (by simp only [Bool.and_eq_true, beq_iff_eq]; intro hc; exact h ⟨hc.1.symm, hc.2.symm⟩), if_neg h, ih (b :: u) hbu]

theorem replBang_eq_self : ∀ s : List Char, hasDoubleBang s = false → replBang s = s := by
  intro s
  induction s using replBang.induct with
  | case1 => intro; rfl
  | case2 a => intro; rfl
  | case3 a b t h ih =>
    intro hdb
    rw [replBang, if_pos h] at *
    rw [hasDoubleBang, if_pos h] at hdb
    exact absurd hdb (by simp)
  | case4 a b t h ih =>
    intro hdb
    rw [hasDoubleBang, if_neg h] at hdb
    rw [replBang, if_neg h, ih hdb]

theorem hasDoubleBang_map_toLower (s : List Char) (h : hasDoubleBang s = false) :
    hasDoubleBang (s.map Char.toLower) = false := by
  induction s using hasDoubleBang.induct with
  | case1 => rfl
  | case2 a => rfl
  | case3 a b t hab =>
    rw [hasDoubleBang, if_pos hab] at h
    exact absurd h (by simp)
  | case4 a b t hab ih =>
    rw [hasDoubleBang, if_neg hab] at h
    rw [List.map_cons, List.map_cons, hasDoubleBang]
    rw [if_neg ?notBang]
    · exact List.map_cons Char.toLower b t ▸ ih h
    · intro hc
      exact hab ⟨toLower_eq_special (by decide) hc.1, toLower_eq_special (by decide) hc.2⟩

theorem mem_map_toLower_special {s : List Char} {d : Char} (hd : d.toNat < 97)
    (h : d ∉ s) : d ∉ s.map Char.toLower := by
  intro hmem
  obtain ⟨c, hc, he⟩ := List.mem_map.mp hmem
  exact h (toLower_eq_special hd he ▸ hc)

/-- Claim C2 support: the full normalizer agrees with the spec-side composition. -/
theorem to_name_path_eq_spec (s : List Char) : to_name_path s = normalizeSpec s := by
  unfold to_name_path normalizeSpec pyReplace
  rw [pyReplaceFuel_bang _ _ (Nat.le_refl _)]
  rw [pyReplaceFuel_colon _ _ (Nat.le_refl _)]
  rw [pyReplaceFuel_space _ _ (Nat.le_refl _)]

/-- Claim C2: `to_name_path` performs exactly the four documented steps, and on
labels free of double bangs, colons and spaces it is just lowercasing. -/
theorem c2_normalize (s : List Char) :
    to_name_path s = normalizeSpec s ∧
    (hasDoubleBang s = false → ':' ∉ s → ' ' ∉ s → to_name_path s = s.map Char.toLower) := by
  refine ⟨to_name_path_eq_spec s, fun hdb hcol hsp => ?_⟩
  rw [to_name_path_eq_spec s]
  unfold normalizeSpec
  rw [replBang_eq_self _ (hasDoubleBang_map_toLower s hdb)]
  rw [List.filter_eq_self.mpr ?hcol2]
  · rw [show (s.map Char.toLower).map (fun c => if c = ' ' then '_' else c) = (s.map Char.toLower).map id from ?_, List.map_id]
    apply List.map_congr_left
    intro a ha
    have hns := mem_map_toLower_special (d := ' ') (by decide) hsp
    simp only [id]
    rw [if_neg ?_]
    intro he
    subst he
    exact hns ha
  · intro a ha
    have hnc := mem_map_toLower_special (d := ':') (by decide) hcol
    simp only [Bool.not_eq_eq_eq_not, Bool.not_true, beq_eq_false_iff_ne, ne_eq]
    intro he
    subst he
    exact hnc ha

theorem c2_witness :
    to_name_path "Estimate!!Total: Pop".data = normalizeSpec "Estimate!!Total: Pop".data ∧
    to_name_path "AbC9z".data = "AbC9z".data.map Char.toLower := by
  refine ⟨(c2_normalize "Estimate!!Total: Pop".data).1, ?_⟩
  exact (c2_normalize "AbC9z".data).2 (by decide) (by decide) (by decide)

/-- Python `identifier.split("_")`: split on every occurrence of the
separator character, keeping empty parts. -/
def splitOnChar (c : Char) : List Char → List (List Char)
  | [] => [[]]
  | a :: t =>
    let r := splitOnChar c t
    if a = c then [] :: r else (a :: r.headI) :: r.tail

/-- The CSV header literal of `write_csv`. -/
def csvHeader : List Char := "group,variable,path".data

/-- The row loop of `write_csv`: content written so far and whether the loop
aborted because an identifier did not unpack into exactly two parts (the
Python `group_id, sgroup_id = identifier.split("_")` raising ValueError). -/
def csvRows : List (List Char × List Char) → List Char × Bool
  | [] => ([], false)
  | (identifier, name) :: rest =>
    match splitOnChar '_' identifier with
    | [g, sg] =>
      let r := csvRows rest
      (g ++ ',' :: sg ++ ',' :: to_name_path name ++ '\n' :: r.1, r.2)
    | _ => ([], true)

/-- The file content left at the CSV destination by `write_csv` (header plus
the rows written before any abort), paired with the abort flag. -/
def write_csv (ms : List (List Char × List Char)) : List Char × Bool :=
  (csvHeader ++ '\n' :: (csvRows ms).1, (csvRows ms).2)

/-- The arm indentation and scrutinee prefix shared by both generated arms. -/
def armHead : List Char := "                C::".data

/-- The middle literal of a label arm. -/
def armLabelMid : List Char := " => String::from(\"".data

/-- The closing literal of a label arm. -/
def armLabelEnd : List Char := "\")".data

/-- The middle literal of a path arm. -/
def armPathMid : List Char := " => Ok(String::from(\"".data

/-- The closing literal of a path arm. -/
def armPathEnd : List Char := "\"))".data

/-- The per-record match arm of the generated `to_string` method. -/
def to_string_gen (group name : List Char) : List Char :=
  armHead ++ group ++ armLabelMid ++ name ++ armLabelEnd

/-- The per-record match arm of the generated `to_path` method. -/
def to_path_gen (group name : List Char) : List Char :=
  armHead ++ group ++ armPathMid ++ to_name_path name ++ armPathEnd

/-- The variant line of one record in the `enums` section. -/
def enumLineOf (p : List Char × List Char) : List Char := "    ".data ++ p.1

/-- The label arm of one record, as mapped over the set by `write_rust`. -/
def labelArmOf (p : List Char × List Char) : List Char := to_string_gen p.1 p.2

/-- The path arm of one record, as mapped over the set by `write_rust`. -/
def pathArmOf (p : List Char × List Char) : List Char := to_path_gen p.1 p.2

/-- The `enums` section of `write_rust`: one indented variant per record,
joined by comma-newline. -/
def enumsOf (ms : List (List Char × List Char)) : List Char :=
  List.intercalate ",\n".data (ms.map enumLineOf)

/-- The `tostr` section of `write_rust`. -/
def tostrOf (ms : List (List Char × List Char)) : List Char :=
  List.intercalate ",\n".data (ms.map labelArmOf)

/-- The `topath` section of `write_rust`. -/
def topathOf (ms : List (List Char × List Char)) : List Char :=
  List.intercalate ",\n".data (ms.map pathArmOf)

/-- Template text of `write_rust` before the enums hole, after formatting
with classname ClassName. -/
def rustSeg1 : List Char :=
  "use serde::\x7bDeserialize, Serialize\x7d;\n\n#[derive(Serialize, Deserialize)]\n#[serde(rename_all = \"SCREAMING_SNAKE_CASE\")]\npub enum ClassName \x7b\n".data

/-- Template text between the enums hole and the tostr hole. -/
def rustSeg2 : List Char :=
  "\n\x7d\n\nimpl ToString for ClassName \x7b\n    fn to_string(&self) -> String \x7b\n        use ClassName as C;\n        match self \x7b\n".data

/-- Template text between the tostr hole and the topath hole; note the
generated `to_path` is declared to return a plain `String`. -/
def rustSeg3 : List Char :=
  "\n        \x7d\n    \x7d\n\x7d\n\nimpl ClassName \x7b\n    \n    fn to_path(&self) -> String \x7b\n        use ClassName as C;\n        match self \x7b\n".data

/-- Template text after the topath hole. -/
def rustSeg4 : List Char := "\n        \x7d\n    \x7d\n\x7d\n    ".data

/-- The complete file content written by `write_rust`. -/
def write_rust (ms : List (List Char × List Char)) : List Char :=
  rustSeg1 ++ enumsOf ms ++ rustSeg2 ++ tostrOf ms ++ rustSeg3 ++
    topathOf ms ++ rustSeg4

/-- The configuration consumed by `run`: indent width, whether each of the
two destinations was requested, and the overwrite flag. -/
structure Args where
  indent : Nat
  csv : Bool
  rs : Bool
  overwrite : Bool

/-- State of the two destination files: `none` means the file does not
exist, `some c` that it exists with content `c`. -/
structure FS where
  csvFile : Option (List Char)
  rsFile : Option (List Char)

/-- Outcome of one `run`: the returned status (`none` when an uncaught
exception escapes), the lines printed, and the final file state. -/
structure RunOut where
  ret : Option Nat
  printed : List (List Char)
  fs : FS

/-- The message printed by `run` when the pattern finds no row. -/
def noMatchMsg : List Char := "no matches found in source file, check formatting".data

/-- Modelled from the spec: the usage summary emitted by the argument
parser's print_usage; its exact text lives in the argparse library, outside
this repository, and only its presence is relevant. -/
def usageMsg : List Char :=
  "usage: extracts acs variables from scraped HTML and generates code [-h] [--csv CSV] [--rs RS] [--indent INDENT] [--overwrite] filename".data

/-- The driver `run`: extract all ms, report and return 1 when there are
none, otherwise write each requested destination that is absent or may be
overwritten (CSV first; an abort inside `write_csv` escapes before the rust
step) and return 0. -/
def run (a : Args) (contents : List Char) (fs : FS) : RunOut :=
  let ms := findall (acsPattern a.indent) contents
  if ms.isEmpty then
    { ret := some 1, printed := [noMatchMsg, usageMsg], fs := fs }
  else
    let csvStep :=
      if a.csv && (fs.csvFile.isNone || a.overwrite) then
        let w := write_csv ms
        ({ csvFile := some w.1, rsFile := fs.rsFile }, w.2)
      else (fs, false)
    if csvStep.2 then { ret := none, printed := [], fs := csvStep.1 }
    else
      let fs2 :=
        if a.rs && (csvStep.1.rsFile.isNone || a.overwrite) then
          { csvFile := csvStep.1.csvFile, rsFile := some (write_rust ms) }
        else csvStep.1
      { ret := some 0, printed := [], fs := fs2 }

/-- The process exit status of `python codegen.py ...`: the main guard calls
`run()` and discards its return value, so a normal return exits with 0; only
an uncaught exception makes the interpreter exit non-zero. -/
def mainExit (a : Args) (contents : List Char) (fs : FS) : Nat :=
  match (run a contents fs).ret with
  | some _ => 0
  | none => 1

theorem splitOnChar_ne_nil (c : Char) (s : List Char) : splitOnChar c s ≠ [] := by
  cases s with
  | nil => simp [splitOnChar]
  | cons a t =>
    simp only [splitOnChar]
    by_cases hac : a = c
    · simp [hac]
    · simp only [if_neg hac]
      cases splitOnChar c t with
      | nil => simp
      | cons h r => simp

theorem splitOnChar_length (c : Char) (s : List Char) :
    (splitOnChar c s).length = s.count c + 1 := by
  induction s with
  | nil => simp [splitOnChar]
  | cons a t ih =>
    simp only [splitOnChar]
    by_cases hac : a = c
    · subst hac
      simp [List.count_cons_self, ih]
    · rw [if_neg hac, List.count_cons_of_ne (fun h2 => hac h2.symm) t]
      cases hs : splitOnChar c t with
      | nil => exact absurd hs (splitOnChar_ne_nil c t)
      | cons h r =>
        rw [hs] at ih
        simp only [List.length_cons] at ih ⊢
        simp [ih]

theorem splitOnChar_single (c : Char) : ∀ t x : List Char, splitOnChar c t = [x] → t = x := by
  intro t
  induction t with
  | nil =>
    intro x h
    simp [splitOnChar] at h
    exact h.symm
  | cons a u ih =>
    intro x h
    simp only [splitOnChar] at h
    by_cases hac : a = c
    · rw [if_pos hac] at h
      have := congrArg List.length h
      simp [splitOnChar_length] at this
    · rw [if_neg hac] at h
      cases hu : splitOnChar c u with
      | nil => exact absurd hu (splitOnChar_ne_nil c u)
      | cons hh r =>
        rw [hu] at h
        simp only [List.headI, List.tail] at h
        obtain ⟨h1, h2⟩ := List.cons.inj h
        have hr : r = [] := h2
        rw [hr] at hu
        rw [ih hh hu]
        rw [← h1]

theorem splitOnChar_pair (c : Char) : ∀ s g sg : List Char,
    splitOnChar c s = [g, sg] → s = g ++ c :: sg := by
  intro s
  induction s with
  | nil =>
    intro g sg h
    simp [splitOnChar] at h
  | cons a t ih =>
    intro g sg h
    simp only [splitOnChar] at h
    by_cases hac : a = c
    · rw [if_pos hac] at h
      obtain ⟨h1, h2⟩ := List.cons.inj h
      subst hac
      rw [← h1, List.nil_append]
      rw [splitOnChar_single a t sg (by rw [h2])]
    · rw [if_neg hac] at h
      cases ht : splitOnChar c t with
      | nil => exact absurd ht (splitOnChar_ne_nil c t)
      | cons hh r =>
        rw [ht] at h
        simp only [List.headI, List.tail] at h
        obtain ⟨h1, h2⟩ := List.cons.inj h
        rw [← h1, List.cons_append]
        congr 1
        apply ih hh sg
        rw [ht, h2]

/-- The row `write_csv` emits for one well-formed record. -/
def csvRow (p : List Char × List Char) : List Char :=
  match splitOnChar '_' p.1 with
  | [g, sg] => g ++ ',' :: sg ++ ',' :: to_name_path p.2 ++ ['\n']
  | _ => []

theorem csvRows_cons_ok {identifier name g sg : List Char}
    (hs : splitOnChar '_' identifier = [g, sg]) (rest : List (List Char × List Char)) :
    csvRows ((identifier, name) :: rest) =
      (g ++ ',' :: sg ++ ',' :: to_name_path name ++ '\n' :: (csvRows rest).1,
        (csvRows rest).2) := by
  simp [csvRows, hs]

theorem csvRows_cons_bad {identifier name : List Char}
    (hs : (splitOnChar '_' identifier).length ≠ 2) (rest : List (List Char × List Char)) :
    csvRows ((identifier, name) :: rest) = ([], true) := by
  match h : splitOnChar '_' identifier with
  | [] => simp [csvRows, h]
  | [x] => simp [csvRows, h]
  | [x, y] => exact absurd (by rw [h]; rfl) hs
  | x :: y :: z :: w => simp [csvRows, h]

theorem csvRow_of_ok {identifier name g sg : List Char}
    (hs : splitOnChar '_' identifier = [g, sg]) :
    csvRow (identifier, name) = g ++ ',' :: sg ++ ',' :: to_name_path name ++ ['\n'] := by
  simp [csvRow, hs]

theorem csvRows_all_ok : ∀ m : List (List Char × List Char),
    (∀ p ∈ m, (splitOnChar '_' p.1).length = 2) →
    csvRows m = ((m.map csvRow).flatten, false) := by
  intro m
  induction m with
  | nil => intro; simp [csvRows]
  | cons p rest ih =>
    intro h
    obtain ⟨g, sg, hgs⟩ := List.length_eq_two.mp (h p (List.mem_cons_self p rest))
    obtain ⟨identifier, name⟩ := p
    rw [csvRows_cons_ok hgs, ih (fun q hq => h q (List.mem_cons_of_mem _ hq))]
    simp [csvRow_of_ok hgs]

theorem csvRows_abort_iff : ∀ m : List (List Char × List Char),
    (csvRows m).2 = true ↔ ∃ p ∈ m, (splitOnChar '_' p.1).length ≠ 2 := by
  intro m
  induction m with
  | nil => simp [csvRows]
  | cons p rest ih =>
    obtain ⟨identifier, name⟩ := p
    by_cases h : (splitOnChar '_' identifier).length = 2
    · obtain ⟨g, sg, hgs⟩ := List.length_eq_two.mp h
      rw [csvRows_cons_ok hgs]
      simp only []
      rw [ih]
      constructor
      · intro ⟨q, hq, hql⟩
        exact ⟨q, List.mem_cons_of_mem _ hq, hql⟩
      · intro ⟨q, hq, hql⟩
        rcases List.mem_cons.mp hq with he | hm
        · exact absurd (he ▸ h) hql
        · exact ⟨q, hm, hql⟩
    · rw [csvRows_cons_bad h rest]
      simp only []
      constructor
      · intro
        exact ⟨(identifier, name), List.mem_cons_self _ _, h⟩
      · intro
        trivial

theorem csvRows_pre_bad (identifier name : List Char) (post : List (List Char × List Char)) :
    ∀ pre : List (List Char × List Char),
    (∀ p ∈ pre, (splitOnChar '_' p.1).length = 2) →
    (splitOnChar '_' identifier).length ≠ 2 →
    csvRows (pre ++ (identifier, name) :: post) = ((pre.map csvRow).flatten, true) := by
  intro pre
  induction pre with
  | nil =>
    intro _ hid
    simpa using csvRows_cons_bad hid post
  | cons q rest ih =>
    intro hpre hid
    obtain ⟨g, sg, hgs⟩ := List.length_eq_two.mp (hpre q (List.mem_cons_self q rest))
    obtain ⟨qi, qn⟩ := q
    rw [List.cons_append, csvRows_cons_ok hgs,
      ih (fun p hp => hpre p (List.mem_cons_of_mem _ hp)) hid]
    simp [csvRow_of_ok hgs]

/-- Claim C3: on an extraction set whose identifiers each contain exactly one
underscore, `write_csv` leaves the header line followed by one unquoted
comma-separated newline-terminated row per record, in order, whose first two
fields rejoin (with an underscore) to the matched identifier and whose third
field is the normalized label. -/
theorem c3_write_csv_format (m : List (List Char × List Char))
    (h : ∀ p ∈ m, p.1.count '_' = 1) :
    (write_csv m).2 = false ∧
    (write_csv m).1 = csvHeader ++ '\n' :: (m.map csvRow).flatten ∧
    ∀ p ∈ m, ∃ g sg, splitOnChar '_' p.1 = [g, sg] ∧ g ++ '_' :: sg = p.1 ∧
      csvRow p = g ++ ',' :: sg ++ ',' :: to_name_path p.2 ++ ['\n'] := by
  have h2 : ∀ p ∈ m, (splitOnChar '_' p.1).length = 2 := fun p hp => by
    rw [splitOnChar_length, h p hp]
  have hc := csvRows_all_ok m h2
  refine ⟨by simp [write_csv, hc], by simp [write_csv, hc], fun p hp => ?_⟩
  obtain ⟨g, sg, hgs⟩ := List.length_eq_two.mp (h2 p hp)
  obtain ⟨identifier, name⟩ := p
  exact ⟨g, sg, hgs, (splitOnChar_pair '_' identifier g sg hgs).symm, csvRow_of_ok hgs⟩

theorem c3_witness :
    (write_csv [("B01001_001E".data, "Estimate!!Total".data)]).2 = false ∧
    (write_csv [("B01001_001E".data, "Estimate!!Total".data)]).1 =
      csvHeader ++ '\n' :: ([("B01001_001E".data, "Estimate!!Total".data)].map csvRow).flatten ∧
    ∀ p ∈ [("B01001_001E".data, "Estimate!!Total".data)], ∃ g sg,
      splitOnChar '_' p.1 = [g, sg] ∧ g ++ '_' :: sg = p.1 ∧
      csvRow p = g ++ ',' :: sg ++ ',' :: to_name_path p.2 ++ ['\n'] :=
  c3_write_csv_format _ (by decide)

/-- Claim C8: `write_csv` aborts exactly when some matched identifier does not
split into exactly two underscore-delimited parts; with exactly one underscore
in every identifier there is no error. -/
theorem c8_malformed_identifier (m : List (List Char × List Char)) :
    ((write_csv m).2 = true ↔ ∃ p ∈ m, (splitOnChar '_' p.1).length ≠ 2) ∧
    ((∀ p ∈ m, p.1.count '_' = 1) → (write_csv m).2 = false) := by
  constructor
  · exact csvRows_abort_iff m
  · intro h
    have h2 : ∀ p ∈ m, (splitOnChar '_' p.1).length = 2 := fun p hp => by
      rw [splitOnChar_length, h p hp]
    show (csvRows m).2 = false
    rw [csvRows_all_ok m h2]

theorem c8_witness :
    (write_csv [("A_B_C".data, "x".data)]).2 = true ∧
    (write_csv [("Z_1".data, "y".data)]).2 = false :=
  ⟨(c8_malformed_identifier _).1.mpr ⟨("A_B_C".data, "x".data), List.mem_cons_self _ _, by decide⟩,
    (c8_malformed_identifier _).2 (by decide)⟩

/-- Claim C9 counterexample: aborting on the malformed second identifier
leaves the destination holding precisely the header and the one preceding
row, i.e. a readable truncated CSV file. -/
theorem c9_counterexample :
    (write_csv [("A_B".data, "x".data), ("A_B_C".data, "y".data)]).2 = true ∧
    (write_csv [("A_B".data, "x".data), ("A_B_C".data, "y".data)]).1 =
      "group,variable,path\nA,B,x\n".data := by
  constructor
  · decide
  · decide

/-- Claim C9 amended: when `write_csv` aborts on the first malformed
identifier, the destination is left as a truncated file containing the header
and exactly the rows of the records preceding the failing one. -/
theorem c9_truncated_file (pre post : List (List Char × List Char))
    (identifier name : List Char)
    (hpre : ∀ p ∈ pre, (splitOnChar '_' p.1).length = 2)
    (hid : (splitOnChar '_' identifier).length ≠ 2) :
    (write_csv (pre ++ (identifier, name) :: post)).2 = true ∧
    (write_csv (pre ++ (identifier, name) :: post)).1 =
      csvHeader ++ '\n' :: (pre.map csvRow).flatten := by
  have h := csvRows_pre_bad identifier name post pre hpre hid
  exact ⟨by show (csvRows _).2 = true; rw [h], by show _ ++ '\n' :: (csvRows _).1 = _; rw [h]⟩

theorem c9_witness :
    (write_csv ([("A_B".data, "x".data)] ++ ("A_B_C".data, "y".data) :: [])).2 = true ∧
    (write_csv ([("A_B".data, "x".data)] ++ ("A_B_C".data, "y".data) :: [])).1 =
      csvHeader ++ '\n' :: ([("A_B".data, "x".data)].map csvRow).flatten :=
  c9_truncated_file [("A_B".data, "x".data)] [] "A_B_C".data "y".data (by decide) (by decide)

/-- Claim C10: with an existing destination and no overwrite flag the run
leaves that destination's content unchanged and still returns success; with
the overwrite flag the requested destination is replaced by the emitter's
output. -/
theorem c10_overwrite (a : Args) (contents : List Char) (fs : FS)
    (hne : (findall (acsPattern a.indent) contents).isEmpty = false)
    (hok : ∀ p ∈ findall (acsPattern a.indent) contents, p.1.count '_' = 1) :
    (∀ c, fs.csvFile = some c → a.overwrite = false →
      (run a contents fs).fs.csvFile = some c ∧ (run a contents fs).ret = some 0) ∧
    (∀ c, fs.rsFile = some c → a.overwrite = false →
      (run a contents fs).fs.rsFile = some c ∧ (run a contents fs).ret = some 0) ∧
    (a.csv = true → a.overwrite = true →
      (run a contents fs).fs.csvFile =
        some (write_csv (findall (acsPattern a.indent) contents)).1) ∧
    (a.rs = true → a.overwrite = true →
      (run a contents fs).fs.rsFile =
        some (write_rust (findall (acsPattern a.indent) contents))) := by
  have hab : (write_csv (findall (acsPattern a.indent) contents)).2 = false := by
    show (csvRows _).2 = false
    rw [csvRows_all_ok _ (fun p hp => by rw [splitOnChar_length, hok p hp])]
  refine ⟨?_, ?_, ?_, ?_⟩
  · intro c hc hov
    simp only [run, hne, Bool.false_eq_true, if_false, hc, hov, Option.isNone_some,
      Bool.or_false, Bool.and_false]
    split <;> simp [hc]
  · intro c hc hov
    simp only [run, hne, Bool.false_eq_true, if_false, hov, Bool.or_false]
    by_cases hcsv : a.csv && fs.csvFile.isNone
    · simp only [hcsv, if_true, hab, Bool.false_eq_true, if_false, hc, Option.isNone_some,
        Bool.and_false]
      simp
    · simp only [hcsv, Bool.false_eq_true, if_false, hab, hc, Option.isNone_some,
        Bool.and_false]
      simp
  · intro hcsv hov
    simp only [run, hne, Bool.false_eq_true, if_false, hcsv, hov, Bool.or_true,
      Bool.and_true, if_true, hab]
    split <;> simp
  · intro hrs hov
    simp only [run, hne, Bool.false_eq_true, if_false, hrs, hov, Bool.or_true,
      Bool.and_true, if_true, hab]
    split <;> simp [hab]

/-- A concrete well-formed single-line row fragment. -/
def rowA : List Char :=
  "<tr><td><a href=\"variables/B01001_001E.html\" name=\"B01001_001E\">B01001_001E</a></td><td>Estimate!!Total</td>".data

/-- A second concrete well-formed single-line row fragment. -/
def rowB : List Char :=
  "<tr><td><a href=\"variables/B01002_002E.html\" name=\"B01002_002E\">B01002_002E</a></td><td>Estimate!!Male</td>".data

theorem c10_witness :
    (run { indent := 0, csv := true, rs := true, overwrite := false } rowA
        { csvFile := some ['x'], rsFile := none }).fs.csvFile = some ['x'] ∧
    (run { indent := 0, csv := true, rs := true, overwrite := false } rowA
        { csvFile := some ['x'], rsFile := none }).ret = some 0 :=
  (c10_overwrite { indent := 0, csv := true, rs := true, overwrite := false } rowA
    { csvFile := some ['x'], rsFile := none } (by decide) (by decide)).1 ['x'] rfl rfl

/-- Claim C7: on an input with no matching row, `run` prints the guidance
message and the usage summary, writes nothing, and returns 1; but the module
main guard discards that value, so the interpreter's exit status is 0, not
the non-zero status the claim requires. -/
theorem c7_no_match_exit :
    run { indent := 2, csv := true, rs := true, overwrite := true } "no rows here".data
        { csvFile := none, rsFile := none } =
      { ret := some 1, printed := [noMatchMsg, usageMsg],
        fs := { csvFile := none, rsFile := none } } ∧
    mainExit { indent := 2, csv := true, rs := true, overwrite := true } "no rows here".data
        { csvFile := none, rsFile := none } = 0 := by
  constructor
  · rfl
  · rfl

/-- Claim C5: the generated `to_path` is declared to return a plain `String`
while each of its match arms produces `Ok(...)`, a `Result` constructor; the
emitted file therefore cannot type-check as Rust. -/
theorem c5_to_path_type_mismatch :
    topathOf [("A_B".data, "x".data)] =
      "                C::A_B => Ok(String::from(\"x\"))".data ∧
    "fn to_path(&self) -> String".data <:+: rustSeg3 ∧
    write_rust [("A_B".data, "x".data)] =
      rustSeg1 ++ enumsOf [("A_B".data, "x".data)] ++ rustSeg2 ++
        tostrOf [("A_B".data, "x".data)] ++ rustSeg3 ++
        topathOf [("A_B".data, "x".data)] ++ rustSeg4 := by
  refine ⟨by decide, ?_, rfl⟩
  decide
/-- The GROUP token of an identifier: the part before the first underscore. -/
def groupOf (identifier : List Char) : List Char :=
  identifier.takeWhile (fun c => !(c == '_'))

theorem inj_of_nodup_map {α β : Type} (f : α → β) :
    ∀ l : List α, (l.map f).Nodup → ∀ q ∈ l, ∀ p ∈ l, f q = f p → q = p := by
  intro l
  induction l with
  | nil => intro _ q hq; exact absurd hq (List.not_mem_nil q)
  | cons a t ih =>
    intro hn q hq p hp hf
    rw [List.map_cons, List.nodup_cons] at hn
    rcases List.mem_cons.mp hq with rfl | hqt
    · rcases List.mem_cons.mp hp with rfl | hpt
      · rfl
      · exact absurd (hf ▸ List.mem_map_of_mem f hpt) hn.1
    · rcases List.mem_cons.mp hp with rfl | hpt
      · exact absurd (hf.symm ▸ List.mem_map_of_mem f hqt) hn.1
      · exact ih hn.2 q hqt p hpt hf

theorem count_map_eq_one {α β : Type} [BEq β] [LawfulBEq β] (f : α → β) :
    ∀ l : List α, ∀ p, p ∈ l → l.Nodup → (∀ q ∈ l, f q = f p → q = p) →
    (l.map f).count (f p) = 1 := by
  intro l
  induction l with
  | nil => intro p hp; exact absurd hp (List.not_mem_nil p)
  | cons a t ih =>
    intro p hp hn hinj
    rw [List.nodup_cons] at hn
    rw [List.map_cons, List.count_cons]
    rcases List.mem_cons.mp hp with rfl | hpt
    · have hz : (t.map f).count (f p) = 0 := by
        rw [List.count_eq_zero]
        intro hmem
        obtain ⟨q, hq, he⟩ := List.mem_map.mp hmem
        exact hn.1 (hinj q (List.mem_cons_of_mem _ hq) he ▸ hq)
      simp [hz]
    · have hne : ¬ f a = f p := fun he =>
        hn.1 (by rw [hinj a (List.mem_cons_self a t) he]; exact hpt)
      have ht : (t.map f).count (f p) = 1 :=
        ih p hpt hn.2 (fun q hq he => hinj q (List.mem_cons_of_mem _ hq) he)
      simp [ht, hne]

theorem word_block_inj : ∀ g1 g2 u v : List Char, g1.all isWordChar → g2.all isWordChar →
    g1 ++ ' ' :: u = g2 ++ ' ' :: v → g1 = g2 ∧ u = v := by
  intro g1
  induction g1 with
  | nil =>
    intro g2 u v _ h2 h
    cases g2 with
    | nil => simpa using h
    | cons b t2 =>
      simp only [List.nil_append, List.cons_append, List.cons.injEq] at h
      simp only [List.all_cons, Bool.and_eq_true] at h2
      rw [← h.1] at h2
      exact absurd h2.1 (by decide)
  | cons a t ih =>
    intro g2 u v h1 h2 h
    cases g2 with
    | nil =>
      simp only [List.cons_append, List.nil_append, List.cons.injEq] at h
      simp only [List.all_cons, Bool.and_eq_true] at h1
      rw [h.1] at h1
      exact absurd h1.1 (by decide)
    | cons b t2 =>
      simp only [List.cons_append, List.cons.injEq] at h
      simp only [List.all_cons, Bool.and_eq_true] at h1 h2
      obtain ⟨hg, hu⟩ := ih t2 u v h1.2 h2.2 h.2
      exact ⟨by rw [h.1, hg], hu⟩

theorem to_string_gen_fst {g1 n1 g2 n2 : List Char}
    (h1 : g1.all isWordChar) (h2 : g2.all isWordChar)
    (h : to_string_gen g1 n1 = to_string_gen g2 n2) : g1 = g2 := by
  unfold to_string_gen at h
  simp only [List.append_assoc] at h
  have h3 := List.append_cancel_left h
  rw [show armLabelMid = ' ' :: "=> String::from(\"".data from rfl] at h3
  simp only [List.cons_append] at h3
  exact (word_block_inj g1 g2 _ _ h1 h2 h3).1

theorem to_path_gen_fst {g1 n1 g2 n2 : List Char}
    (h1 : g1.all isWordChar) (h2 : g2.all isWordChar)
    (h : to_path_gen g1 n1 = to_path_gen g2 n2) : g1 = g2 := by
  unfold to_path_gen at h
  simp only [List.append_assoc] at h
  have h3 := List.append_cancel_left h
  rw [show armPathMid = ' ' :: "=> Ok(String::from(\"".data from rfl] at h3
  simp only [List.cons_append] at h3
  exact (word_block_inj g1 g2 _ _ h1 h2 h3).1

/-- Claim C4: on an extraction set with pairwise-distinct GROUP tokens the
generated file has pairwise-distinct variants, one per record in document
order, and exactly one label arm and one path arm per variant, the label arm
holding the record's label and the path arm its normalized path. -/
theorem c4_write_rust_variants (m : List (List Char × List Char))
    (hw : ∀ p ∈ m, p.1.all isWordChar = true)
    (hg : (m.map (fun p => groupOf p.1)).Nodup) :
    (m.map Prod.fst).Nodup ∧
    enumsOf m = List.intercalate ",\n".data (m.map enumLineOf) ∧
    tostrOf m = List.intercalate ",\n".data (m.map labelArmOf) ∧
    topathOf m = List.intercalate ",\n".data (m.map pathArmOf) ∧
    write_rust m = rustSeg1 ++ enumsOf m ++ rustSeg2 ++ tostrOf m ++ rustSeg3 ++
      topathOf m ++ rustSeg4 ∧
    (∀ p ∈ m,
      labelArmOf p = armHead ++ p.1 ++ armLabelMid ++ p.2 ++ armLabelEnd ∧
      pathArmOf p = armHead ++ p.1 ++ armPathMid ++ to_name_path p.2 ++ armPathEnd ∧
      (m.map enumLineOf).count (enumLineOf p) = 1 ∧
      (m.map labelArmOf).count (labelArmOf p) = 1 ∧
      (m.map pathArmOf).count (pathArmOf p) = 1) := by
  have hnames : (m.map Prod.fst).Nodup := by
    have h : (m.map Prod.fst).map groupOf = m.map (fun p => groupOf p.1) := by
      rw [List.map_map]
      rfl
    exact List.Nodup.of_map groupOf (h ▸ hg)
  have hm : m.Nodup := List.Nodup.of_map Prod.fst hnames
  have hfst : ∀ q ∈ m, ∀ p ∈ m, q.1 = p.1 → q = p :=
    inj_of_nodup_map Prod.fst m hnames
  refine ⟨hnames, rfl, rfl, rfl, rfl, fun p hp => ?_⟩
  refine ⟨rfl, rfl, ?_, ?_, ?_⟩
  · exact count_map_eq_one enumLineOf m p hp hm
      (fun q hq he => hfst q hq p hp (List.append_cancel_left he))
  · exact count_map_eq_one labelArmOf m p hp hm
      (fun q hq he => hfst q hq p hp (to_string_gen_fst (hw q hq) (hw p hp) he))
  · exact count_map_eq_one pathArmOf m p hp hm
      (fun q hq he => hfst q hq p hp (to_path_gen_fst (hw q hq) (hw p hp) he))

theorem c4_witness :
    ([("A_1".data, "x y".data), ("B_2".data, "z".data)].map Prod.fst).Nodup ∧
    enumsOf [("A_1".data, "x y".data), ("B_2".data, "z".data)] =
      List.intercalate ",\n".data
        ([("A_1".data, "x y".data), ("B_2".data, "z".data)].map enumLineOf) ∧
    tostrOf [("A_1".data, "x y".data), ("B_2".data, "z".data)] =
      List.intercalate ",\n".data
        ([("A_1".data, "x y".data), ("B_2".data, "z".data)].map labelArmOf) ∧
    topathOf [("A_1".data, "x y".data), ("B_2".data, "z".data)] =
      List.intercalate ",\n".data
        ([("A_1".data, "x y".data), ("B_2".data, "z".data)].map pathArmOf) ∧
    write_rust [("A_1".data, "x y".data), ("B_2".data, "z".data)] =
      rustSeg1 ++ enumsOf [("A_1".data, "x y".data), ("B_2".data, "z".data)] ++ rustSeg2 ++
        tostrOf [("A_1".data, "x y".data), ("B_2".data, "z".data)] ++ rustSeg3 ++
        topathOf [("A_1".data, "x y".data), ("B_2".data, "z".data)] ++ rustSeg4 ∧
    (∀ p ∈ [("A_1".data, "x y".data), ("B_2".data, "z".data)],
      labelArmOf p = armHead ++ p.1 ++ armLabelMid ++ p.2 ++ armLabelEnd ∧
      pathArmOf p = armHead ++ p.1 ++ armPathMid ++ to_name_path p.2 ++ armPathEnd ∧
      ([("A_1".data, "x y".data), ("B_2".data, "z".data)].map enumLineOf).count (enumLineOf p) = 1 ∧
      ([("A_1".data, "x y".data), ("B_2".data, "z".data)].map labelArmOf).count (labelArmOf p) = 1 ∧
      ([("A_1".data, "x y".data), ("B_2".data, "z".data)].map pathArmOf).count (pathArmOf p) = 1) :=
  c4_write_rust_variants _ (by decide) (by decide)

theorem isPrefixOfIff {a b : List Char} : a.isPrefixOf b = true ↔ a <+: b :=
  List.isPrefixOf_iff_prefix

theorem prefixNilEq {l : List Char} (h : l <+: ([] : List Char)) : l = [] := by
  obtain ⟨t, ht⟩ := h
  exact (List.append_eq_nil.mp ht).1

theorem consPrefixCons {a b : Char} {l s : List Char} :
    (a :: l) <+: (b :: s) ↔ a = b ∧ l <+: s :=
  List.cons_prefix_cons

theorem mtch_str_append (l t : List Char) (k : List Char → Option MRes) :
    mtch (.str l) (l ++ t) k = k t := by
  rw [mtch, if_pos (isPrefixOfIff.mpr ⟨t, rfl⟩), List.drop_left]

theorem mtch_str_not {l s : List Char} (h : ¬ l <+: s) (k : List Char → Option MRes) :
    mtch (.str l) s k = none := by
  rw [mtch, if_neg (fun hp => h (isPrefixOfIff.mp hp))]

theorem mtch_str_some {l s : List Char} {k : List Char → Option MRes} {r : MRes}
    (h : mtch (.str l) s k = some r) : ∃ t, s = l ++ t ∧ k t = some r := by
  rw [mtch] at h
  by_cases hp : l.isPrefixOf s
  · rw [if_pos hp] at h
    obtain ⟨t, ht⟩ := isPrefixOfIff.mp hp
    refine ⟨t, ht.symm, ?_⟩
    rw [← h, ← ht, List.drop_left]
  · rw [if_neg hp] at h
    exact absurd h (by simp)

theorem clsRun_le_length (k : CharCls) (s : List Char) : clsRun k s ≤ s.length := by
  unfold clsRun
  exact (List.takeWhile_sublist (memCls k)).length_le

theorem clsRun_ge (k : CharCls) (a b : List Char) (h : a.all (memCls k) = true) :
    a.length ≤ clsRun k (a ++ b) := by
  unfold clsRun
  induction a with
  | nil => simp
  | cons x a' ih =>
    rw [List.all_cons, Bool.and_eq_true] at h
    rw [List.cons_append, List.takeWhile_cons, if_pos h.1]
    simp only [List.length_cons]
    have := ih h.2
    omega

theorem clsRun_le (k : CharCls) (a : List Char) (c : Char) (b : List Char)
    (h : memCls k c = false) : clsRun k (a ++ c :: b) ≤ a.length := by
  unfold clsRun
  induction a with
  | nil =>
    rw [List.nil_append, List.takeWhile_cons]
    simp [h]
  | cons x a' ih =>
    rw [List.cons_append, List.takeWhile_cons]
    by_cases hx : memCls k x
    · rw [if_pos hx]
      simp only [List.length_cons]
      omega
    · rw [if_neg hx]
      simp

theorem clsRun_eq (k : CharCls) (a : List Char) (c : Char) (b : List Char)
    (ha : a.all (memCls k) = true) (hc : memCls k c = false) :
    clsRun k (a ++ c :: b) = a.length :=
  Nat.le_antisymm (clsRun_le k a c b hc) (clsRun_ge k a (c :: b) ha)

theorem clsRun_take (k : CharCls) : ∀ (s : List Char) (i : Nat), i ≤ clsRun k s →
    (s.take i).all (memCls k) = true := by
  intro s
  induction s with
  | nil => intro i _; simp
  | cons a t ih =>
    intro i hi
    cases i with
    | zero => simp
    | succ i' =>
      unfold clsRun at hi
      rw [List.takeWhile_cons] at hi
      by_cases ha : memCls k a
      · rw [if_pos ha] at hi
        simp only [List.length_cons] at hi
        rw [List.take_succ_cons, List.all_cons, ha, Bool.true_and]
        exact ih i' (by unfold clsRun; omega)
      · rw [if_neg ha] at hi
        simp at hi

theorem starLoop_eq (s : List Char) (k : List Char → Option MRes) (r : MRes) :
    ∀ n : Nat, (∃ i, i ≤ n ∧ k (s.drop i) = some r) →
    (∀ j, j ≤ n → (k (s.drop j) = none ∨ k (s.drop j) = some r)) →
    starLoop s k n = some r := by
  intro n
  induction n with
  | zero =>
    intro he _
    obtain ⟨i, hi, hk⟩ := he
    rw [Nat.le_zero.mp hi] at hk
    rw [starLoop]
    exact hk
  | succ n ih =>
    intro he hall
    rw [starLoop]
    rcases hall (n+1) (Nat.le_refl _) with h1 | h1
    · rw [h1]
      refine ih ?_ (fun j hj => hall j (Nat.le_succ_of_le hj))
      obtain ⟨i, hi, hk⟩ := he
      rcases Nat.lt_or_ge i (n+1) with hlt | hge
      · exact ⟨i, Nat.lt_succ_iff.mp hlt, hk⟩
      · rw [Nat.le_antisymm hi hge] at hk
        rw [hk] at h1
        exact absurd h1 (by simp)
    · rw [h1]

theorem plusLoop_eq (s : List Char) (k : List Char → Option MRes) (r : MRes) :
    ∀ n : Nat, (∃ i, 1 ≤ i ∧ i ≤ n ∧ k (s.drop i) = some r) →
    (∀ j, 1 ≤ j → j ≤ n → (k (s.drop j) = none ∨ k (s.drop j) = some r)) →
    plusLoop s k n = some r := by
  intro n
  induction n with
  | zero =>
    intro he _
    obtain ⟨i, hi1, hi, _⟩ := he
    omega
  | succ n ih =>
    intro he hall
    rw [plusLoop]
    rcases hall (n+1) (by omega) (Nat.le_refl _) with h1 | h1
    · rw [h1]
      refine ih ?_ (fun j hj1 hj => hall j hj1 (Nat.le_succ_of_le hj))
      obtain ⟨i, hi1, hi, hk⟩ := he
      rcases Nat.lt_or_ge i (n+1) with hlt | hge
      · exact ⟨i, hi1, Nat.lt_succ_iff.mp hlt, hk⟩
      · rw [Nat.le_antisymm hi hge] at hk
        rw [hk] at h1
        exact absurd h1 (by simp)
    · rw [h1]

theorem starLoop_some (s : List Char) (k : List Char → Option MRes) (r : MRes) :
    ∀ n : Nat, starLoop s k n = some r → ∃ i, i ≤ n ∧ k (s.drop i) = some r := by
  intro n
  induction n with
  | zero =>
    intro h
    rw [starLoop] at h
    exact ⟨0, Nat.le_refl 0, h⟩
  | succ n ih =>
    intro h
    rw [starLoop] at h
    cases hk : k (s.drop (n+1)) with
    | some r2 =>
      rw [hk] at h
      exact ⟨n+1, Nat.le_refl _, by rw [hk]; exact h⟩
    | none =>
      rw [hk] at h
      obtain ⟨i, hi, hk2⟩ := ih h
      exact ⟨i, Nat.le_succ_of_le hi, hk2⟩

theorem plusLoop_some (s : List Char) (k : List Char → Option MRes) (r : MRes) :
    ∀ n : Nat, plusLoop s k n = some r → ∃ i, 1 ≤ i ∧ i ≤ n ∧ k (s.drop i) = some r := by
  intro n
  induction n with
  | zero =>
    intro h
    rw [plusLoop] at h
    exact absurd h (by simp)
  | succ n ih =>
    intro h
    rw [plusLoop] at h
    cases hk : k (s.drop (n+1)) with
    | some r2 =>
      rw [hk] at h
      exact ⟨n+1, by omega, Nat.le_refl _, by rw [hk]; exact h⟩
    | none =>
      rw [hk] at h
      obtain ⟨i, h1, hi, hk2⟩ := ih h
      exact ⟨i, h1, Nat.le_succ_of_le hi, hk2⟩

theorem peelSeg {l : List Char} {c : Char} (hc : l.head? = some c) :
    ∀ (u : List Char) (j : Nat) (v : List Char), (∀ x ∈ u, x ≠ c) →
    l <+: (u ++ v).drop j → u.length ≤ j ∧ l <+: v.drop (j - u.length) := by
  intro u
  induction u with
  | nil =>
    intro j v _ h
    simpa using h
  | cons a u2 ih =>
    intro j v hu h
    cases j with
    | zero =>
      rw [List.drop_zero, List.cons_append] at h
      cases l with
      | nil => simp at hc
      | cons lc lt =>
        rw [List.head?_cons, Option.some.injEq] at hc
        rw [consPrefixCons] at h
        exact absurd (hc ▸ h.1.symm) (hu a (List.mem_cons_self a u2))
    | succ j2 =>
      rw [List.cons_append, List.drop_succ_cons] at h
      obtain ⟨h1, h2⟩ := ih j2 v (fun x hx => hu x (List.mem_cons_of_mem _ hx)) h
      refine ⟨by simpa using Nat.succ_le_succ h1, ?_⟩
      have : j2 + 1 - (a :: u2).length = j2 - u2.length := by
        simp only [List.length_cons]
        omega
      rw [this]
      exact h2

theorem peelCons {l w : List Char} {c : Char} {j : Nat} (h : l <+: (c :: w).drop j) :
    (j = 0 ∧ l <+: c :: w) ∨ (1 ≤ j ∧ l <+: w.drop (j - 1)) := by
  cases j with
  | zero =>
    rw [List.drop_zero] at h
    exact Or.inl ⟨rfl, h⟩
  | succ j2 =>
    rw [List.drop_succ_cons] at h
    exact Or.inr ⟨by omega, by simpa using h⟩

theorem not_prefix_head {l : List Char} {c : Char} (hc : l.head? = some c)
    {u v : List Char} (hu : ∀ x ∈ u, x ≠ c) (hv : v.head? ≠ some c) :
    ¬ l <+: (u ++ v) := by
  intro h
  cases l with
  | nil => simp at hc
  | cons lc lt =>
    rw [List.head?_cons, Option.some.injEq] at hc
    subst hc
    cases u with
    | nil =>
      rw [List.nil_append] at h
      cases v with
      | nil => exact absurd (prefixNilEq h) (by simp)
      | cons d w =>
        rw [consPrefixCons] at h
        exact hv (by rw [List.head?_cons, h.1])
    | cons a u2 =>
      rw [List.cons_append, consPrefixCons] at h
      exact hu a (List.mem_cons_self a u2) h.1.symm

theorem mtch_seq (a b : RE) (s : List Char) (k : List Char → Option MRes) :
    mtch (.seq a b) s k = mtch a s (fun t => mtch b t k) := rfl

theorem mtch_group (i : Nat) (r : RE) (s : List Char) (k : List Char → Option MRes) :
    mtch (.group i r) s k =
      mtch r s (fun t => (k t).map (fun res => (res.1, (i, s.take (s.length - t.length)) :: res.2))) :=
  rfl

theorem mtch_plus (c : CharCls) (s : List Char) (k : List Char → Option MRes) :
    mtch (.plusC c) s k = plusLoop s k (clsRun c s) := rfl

theorem mtch_star (c : CharCls) (s : List Char) (k : List Char → Option MRes) :
    mtch (.starC c) s k = starLoop s k (clsRun c s) := rfl

theorem ne_of_cls {p : Char → Bool} {c d : Char} (h : p c = true) (hd : p d = false) : c ≠ d :=
  fun he => by rw [he, hd] at h; exact absurd h (by simp)

theorem all_of_drop {p : Char → Bool} {l : List Char} (n : Nat) (h : l.all p = true) :
    (l.drop n).all p = true := by
  rw [List.all_eq_true] at h ⊢
  exact fun x hx => h x (List.drop_subset n l hx)

theorem drop_ne_nil_cons {l : List Char} {j : Nat} (h : j < l.length) :
    ∃ d D, l.drop j = d :: D ∧ d ∈ l := by
  cases hd : l.drop j with
  | nil =>
    rw [List.drop_eq_nil_iff] at hd
    omega
  | cons d D =>
    refine ⟨d, D, rfl, ?_⟩
    have : d ∈ l.drop j := by rw [hd]; exact List.mem_cons_self d D
    exact List.drop_subset j l this

/-- The group-2 section: `([\w:! ]+)</td>` matched against a label followed by
the closing literal captures exactly the label. -/
theorem mtch_sec_grp2 (label rest : List Char) (hl : label ≠ [])
    (ha : label.all isNameChar = true) :
    mtch patGrp2 (label ++ (tdLit ++ rest)) (fun t => some (t, [])) =
      some (rest, [(2, label)]) := by
  have hlt : tdLit ++ rest = '<' :: ("/td>".data ++ rest) := rfl
  rw [patGrp2, mtch_seq, grp2, mtch_group, mtch_plus]
  have hrun : clsRun .nameCls (label ++ (tdLit ++ rest)) = label.length := by
    rw [hlt]
    exact clsRun_eq .nameCls label '<' _ ha (by decide)
  rw [hrun]
  apply plusLoop_eq
  · refine ⟨label.length, by have := List.length_pos.mpr hl; omega, Nat.le_refl _, ?_⟩
    rw [List.drop_left, patTail, mtch_str_append]
    rw [Option.map_some']
    have hlen : (label ++ (tdLit ++ rest)).length - (tdLit ++ rest).length = label.length := by
      rw [List.length_append]
      omega
    rw [hlen, List.take_left]
  · intro j hj1 hj
    rcases Nat.lt_or_ge j label.length with hlt2 | hge
    · left
      obtain ⟨d, D, hd, hdm⟩ := drop_ne_nil_cons hlt2
      rw [List.drop_append_of_le_length (by omega), hd, List.cons_append]
      have hdc : d ≠ '<' := by
        rw [List.all_eq_true] at ha
        exact ne_of_cls (ha d hdm) (by decide)
      rw [patTail, mtch_str_not]
      · simp
      · intro hp
        rw [show tdLit = '<' :: "/td>".data from rfl, consPrefixCons] at hp
        exact hdc hp.1.symm
    · right
      have hje : j = label.length := by omega
      subst hje
      rw [List.drop_left, patTail, mtch_str_append]
      rw [Option.map_some']
      have hlen : (label ++ (tdLit ++ rest)).length - (tdLit ++ rest).length = label.length := by
        rw [List.length_append]
        omega
      rw [hlen, List.take_left]

/-- The mid-literal section followed by the group-2 section. -/
theorem mtch_sec_mid (mid label rest : List Char) (hl : label ≠ [])
    (ha : label.all isNameChar = true) :
    mtch (patMid mid) (mid ++ (label ++ (tdLit ++ rest))) (fun t => some (t, [])) =
      some (rest, [(2, label)]) := by
  rw [patMid, mtch_seq, mtch_str_append]
  exact mtch_sec_grp2 label rest hl ha

/-- The group-1 section: `(\w+_\w+)` matched against a two-part identifier
followed by the mid literal captures the whole identifier, whatever split of
the run the backtracking engine settles on. -/
theorem mtch_sec_grp1 (w1 w2 mid label rest : List Char) (mc : Char)
    (h1 : w1 ≠ []) (hw1 : w1.all isWordChar = true)
    (h2 : w2 ≠ []) (hw2 : w2.all isWordChar = true)
    (hmid : mid.head? = some mc) (hmc : isWordChar mc = false)
    (hl : label ≠ []) (ha : label.all isNameChar = true) :
    mtch (patGrp1 mid) ((w1 ++ '_' :: w2) ++ (mid ++ (label ++ (tdLit ++ rest))))
      (fun t => some (t, [])) =
      some (rest, [(1, w1 ++ '_' :: w2), (2, label)]) := by
  obtain ⟨mid2, hmid2⟩ : ∃ mid2, mid = mc :: mid2 := by
    cases mid with
    | nil => simp at hmid
    | cons x xs =>
      rw [List.head?_cons, Option.some.injEq] at hmid
      exact ⟨xs, by rw [hmid]⟩
  have hRw : (w1 ++ '_' :: w2).all isWordChar = true := by
    rw [List.all_append, List.all_cons]
    rw [hw1, hw2]
    simp [show isWordChar '_' = true from by decide]
  have hw1len : 1 ≤ w1.length := List.length_pos.mpr h1
  have hw2len : 1 ≤ w2.length := List.length_pos.mpr h2
  have hslen : ((w1 ++ '_' :: w2) ++ (mid ++ (label ++ (tdLit ++ rest)))).length -
      (mid ++ (label ++ (tdLit ++ rest))).length = (w1 ++ '_' :: w2).length := by
    rw [List.length_append]
    omega
  rw [patGrp1, mtch_seq, grp1, mtch_group, mtch_seq, mtch_plus]
  have hrun : clsRun .word ((w1 ++ '_' :: w2) ++ (mid ++ (label ++ (tdLit ++ rest)))) =
      (w1 ++ '_' :: w2).length := by
    rw [hmid2, List.cons_append]
    exact clsRun_eq .word (w1 ++ '_' :: w2) mc _ hRw hmc
  rw [hrun]
  -- value of the group continuation at the end of the identifier run
  have hKtail :
      (mtch (patMid mid) (mid ++ (label ++ (tdLit ++ rest))) (fun u => some (u, []))).map
          (fun res => (res.1,
            (1, ((w1 ++ '_' :: w2) ++ (mid ++ (label ++ (tdLit ++ rest)))).take
              (((w1 ++ '_' :: w2) ++ (mid ++ (label ++ (tdLit ++ rest)))).length -
                (mid ++ (label ++ (tdLit ++ rest))).length)) :: res.2)) =
        some (rest, [(1, w1 ++ '_' :: w2), (2, label)]) := by
    rw [mtch_sec_mid mid label rest hl ha, Option.map_some', hslen, List.take_left]
  -- the group continuation fails whenever the remaining input starts with a word char
  have hKfail : ∀ (d : Char) (D : List Char), isWordChar d = true → ∀ cap : List Char,
      (mtch (patMid mid) (d :: D) (fun u => some (u, []))).map
          (fun res => (res.1, (1, cap) :: res.2)) = none := by
    intro d D hdw cap
    rw [patMid, mtch_seq, mtch_str_not, Option.map_none']
    rw [hmid2]
    intro hp
    rw [consPrefixCons] at hp
    exact (ne_of_cls hdw hmc) hp.1.symm
  -- the inner `\w+` after the underscore: fails on an empty run, succeeds on a
  -- non-empty word run reaching the mid literal
  have hInnerPos : ∀ D : List Char, D.all isWordChar = true → D ≠ [] →
      mtch (.plusC .word) (D ++ (mid ++ (label ++ (tdLit ++ rest))))
        (fun t => (mtch (patMid mid) t (fun u => some (u, []))).map
          (fun res => (res.1,
            (1, ((w1 ++ '_' :: w2) ++ (mid ++ (label ++ (tdLit ++ rest)))).take
              (((w1 ++ '_' :: w2) ++ (mid ++ (label ++ (tdLit ++ rest)))).length -
                t.length)) :: res.2))) =
      some (rest, [(1, w1 ++ '_' :: w2), (2, label)]) := by
    intro D hD hDne
    rw [mtch_plus]
    have hrunD : clsRun .word (D ++ (mid ++ (label ++ (tdLit ++ rest)))) = D.length := by
      rw [hmid2, List.cons_append]
      exact clsRun_eq .word D mc _ hD hmc
    rw [hrunD]
    apply plusLoop_eq
    · refine ⟨D.length, List.length_pos.mpr hDne, Nat.le_refl _, ?_⟩
      simp only [List.drop_left]
      exact hKtail
    · intro j hj1 hj
      rcases Nat.lt_or_ge j D.length with hlt2 | hge
      · left
        obtain ⟨d, D2, hd, hdm⟩ := drop_ne_nil_cons hlt2
        rw [List.drop_append_of_le_length (by omega), hd, List.cons_append]
        apply hKfail
        rw [List.all_eq_true] at hD
        exact hD d hdm
      · right
        have hje : j = D.length := by omega
        subst hje
        simp only [List.drop_left]
        exact hKtail
  have hInnerNil :
      mtch (.plusC .word) (mid ++ (label ++ (tdLit ++ rest)))
        (fun t => (mtch (patMid mid) t (fun u => some (u, []))).map
          (fun res => (res.1,
            (1, ((w1 ++ '_' :: w2) ++ (mid ++ (label ++ (tdLit ++ rest)))).take
              (((w1 ++ '_' :: w2) ++ (mid ++ (label ++ (tdLit ++ rest)))).length -
                t.length)) :: res.2))) = none := by
    rw [mtch_plus]
    have hrun0 : clsRun .word (mid ++ (label ++ (tdLit ++ rest))) = 0 := by
      rw [hmid2, List.cons_append]
      exact clsRun_eq .word [] mc _ (by simp) hmc
    rw [hrun0, plusLoop]
  apply plusLoop_eq
  · refine ⟨w1.length, hw1len, by rw [List.length_append]; omega, ?_⟩
    have harg : ((w1 ++ '_' :: w2) ++ (mid ++ (label ++ (tdLit ++ rest)))).drop w1.length =
        '_' :: (w2 ++ (mid ++ (label ++ (tdLit ++ rest)))) := by
      rw [List.append_assoc, List.cons_append, List.drop_left]
    rw [harg]
    simp only [mtch_seq]
    rw [show ('_' :: (w2 ++ (mid ++ (label ++ (tdLit ++ rest))))) =
      ['_'] ++ (w2 ++ (mid ++ (label ++ (tdLit ++ rest)))) from rfl, mtch_str_append]
    exact hInnerPos w2 hw2 h2
  · intro j hj1 hj
    rcases Nat.lt_or_ge j (w1 ++ '_' :: w2).length with hlt2 | hge
    · obtain ⟨d, D, hd, hdm⟩ := drop_ne_nil_cons hlt2
      rw [List.drop_append_of_le_length (by omega), hd, List.cons_append]
      simp only [mtch_seq]
      by_cases hdu : d = '_'
      · subst hdu
        rw [show ('_' :: (D ++ (mid ++ (label ++ (tdLit ++ rest))))) =
          ['_'] ++ (D ++ (mid ++ (label ++ (tdLit ++ rest)))) from rfl, mtch_str_append]
        have hDw : D.all isWordChar = true := by
          have hall := all_of_drop j hRw
          rw [hd] at hall
          simp only [List.all_cons, Bool.and_eq_true] at hall
          exact hall.2
        cases hDnil : D with
        | nil =>
          left
          rw [List.nil_append]
          exact hInnerNil
        | cons e D2 =>
          right
          rw [← hDnil]
          exact hInnerPos D hDw (by rw [hDnil]; simp)
      · left
        rw [mtch_str_not]
        intro hp
        rw [consPrefixCons] at hp
        exact hdu hp.1.symm
    · left
      have hje : j = (w1 ++ '_' :: w2).length := by omega
      subst hje
      rw [List.drop_left]
      simp only [mtch_seq]
      rw [hmid2, List.cons_append, mtch_str_not]
      intro hp
      rw [consPrefixCons] at hp
      exact (ne_of_cls (show isWordChar '_' = true from by decide) hmc) hp.1


theorem tdLit_no_dq : ∀ x ∈ tdLit, x ≠ '"' := by decide

theorem mem_all_dot {l : List Char} (h : ∀ c ∈ l, c ≠ '\n') : l.all (memCls .dot) = true := by
  rw [List.all_eq_true]
  intro c hc
  simp [memCls, h c hc]


theorem mtch_gt_strip (mid U : List Char) :
    mtch (patGt mid) (gtLit ++ U) (fun t => some (t, [])) =
      mtch (patGrp1 mid) U (fun t => some (t, [])) := by
  rw [patGt, mtch_seq, mtch_str_append]

/-- The second `.*` section: the hole between `" name="` and `">`. -/
theorem mtch_sec_star2 (nm w1 w2 mid label rest : List Char) (mc : Char)
    (hnmn : ∀ c ∈ nm, c ≠ '\n') (hnmq : ∀ c ∈ nm, c ≠ '"')
    (h1 : w1 ≠ []) (hw1 : w1.all isWordChar = true)
    (h2 : w2 ≠ []) (hw2 : w2.all isWordChar = true)
    (hmid : mid.head? = some mc) (hmc : isWordChar mc = false)
    (hmdq : ∀ c ∈ mid, c ≠ '"')
    (hl : label ≠ []) (ha : label.all isNameChar = true)
    (hrest : rest = [] ∨ ∃ r2, rest = '\n' :: r2) :
    mtch (patStar2 mid)
      (nm ++ (gtLit ++ ((w1 ++ '_' :: w2) ++ (mid ++ (label ++ (tdLit ++ rest))))))
      (fun t => some (t, [])) =
      some (rest, [(1, w1 ++ '_' :: w2), (2, label)]) := by
  have hRw : (w1 ++ '_' :: w2).all isWordChar = true := by
    rw [List.all_append, List.all_cons]
    rw [hw1, hw2]
    simp [show isWordChar '_' = true from by decide]
  -- the big block between `">` and `rest` contains no double quote
  have hWdq : ∀ x ∈ (w1 ++ '_' :: w2) ++ (mid ++ (label ++ tdLit)), x ≠ '"' := by
    intro x hx
    rcases List.mem_append.mp hx with h | h
    · exact ne_of_cls ((List.all_eq_true.mp hRw) x h) (by decide)
    rcases List.mem_append.mp h with h | h
    · exact hmdq x h
    rcases List.mem_append.mp h with h | h
    · exact ne_of_cls ((List.all_eq_true.mp ha) x h) (by decide)
    · exact tdLit_no_dq x h
  -- the whole input, reassociated to isolate `rest`
  have hsplit : nm ++ (gtLit ++ ((w1 ++ '_' :: w2) ++ (mid ++ (label ++ (tdLit ++ rest))))) =
      nm ++ ('"' :: ('>' :: (((w1 ++ '_' :: w2) ++ (mid ++ (label ++ tdLit))) ++ rest))) := by
    simp [gtLit, List.append_assoc]
  have hrun_ge : nm.length ≤ clsRun .dot
      (nm ++ (gtLit ++ ((w1 ++ '_' :: w2) ++ (mid ++ (label ++ (tdLit ++ rest)))))) :=
    clsRun_ge .dot nm _ (mem_all_dot hnmn)
  have hrun_le : clsRun .dot
      (nm ++ (gtLit ++ ((w1 ++ '_' :: w2) ++ (mid ++ (label ++ (tdLit ++ rest)))))) ≤
      nm.length + 2 + ((w1 ++ '_' :: w2) ++ (mid ++ (label ++ tdLit))).length := by
    rcases hrest with hre | ⟨r2, hre⟩
    · subst hre
      refine le_trans (clsRun_le_length _ _) ?_
      simp only [List.length_append, List.length_cons, gtLit, List.length_nil]
      simp [tdLit]
      omega
    · subst hre
      have heq : nm ++ (gtLit ++ ((w1 ++ '_' :: w2) ++ (mid ++ (label ++ (tdLit ++ ('\n' :: r2)))))) =
          (nm ++ ('"' :: ('>' :: ((w1 ++ '_' :: w2) ++ (mid ++ (label ++ tdLit)))))) ++ '\n' :: r2 := by
        simp [gtLit, List.append_assoc]
      have hle := clsRun_le .dot
        (nm ++ ('"' :: ('>' :: ((w1 ++ '_' :: w2) ++ (mid ++ (label ++ tdLit)))))) '\n' r2
        (by decide)
      rw [← heq] at hle
      refine le_trans hle ?_
      simp only [List.length_append, List.length_cons]
      omega
  rw [patStar2, mtch_seq, mtch_star]
  apply starLoop_eq
  · refine ⟨nm.length, hrun_ge, ?_⟩
    show mtch (patGt mid)
      ((nm ++ (gtLit ++ ((w1 ++ '_' :: w2) ++ (mid ++ (label ++ (tdLit ++ rest)))))).drop nm.length)
      (fun t => some (t, [])) = _
    rw [List.drop_left, mtch_gt_strip]
    exact mtch_sec_grp1 w1 w2 mid label rest mc h1 hw1 h2 hw2 hmid hmc hl ha
  · intro j hj
    rcases eq_or_ne j nm.length with hje | hjne
    · subst hje
      right
      show mtch (patGt mid)
        ((nm ++ (gtLit ++ ((w1 ++ '_' :: w2) ++ (mid ++ (label ++ (tdLit ++ rest)))))).drop nm.length)
        (fun t => some (t, [])) = _
      rw [List.drop_left, mtch_gt_strip]
      exact mtch_sec_grp1 w1 w2 mid label rest mc h1 hw1 h2 hw2 hmid hmc hl ha
    · left
      show mtch (patGt mid)
        ((nm ++ (gtLit ++ ((w1 ++ '_' :: w2) ++ (mid ++ (label ++ (tdLit ++ rest)))))).drop j)
        (fun t => some (t, [])) = none
      rw [patGt, mtch_seq]
      apply mtch_str_not
      intro hp
      rw [hsplit] at hp
      obtain ⟨hj1, hp1⟩ := peelSeg (show gtLit.head? = some '"' from rfl) nm j _ hnmq hp
      rcases peelCons hp1 with ⟨hz, _⟩ | ⟨ho, hp2⟩
      · exact hjne (by omega)
      · rcases peelCons hp2 with ⟨_, hz2⟩ | ⟨ho2, hp3⟩
        · rw [show gtLit = '"' :: ['>'] from rfl, consPrefixCons] at hz2
          exact absurd hz2.1 (by decide)
        · obtain ⟨hj2, hp4⟩ := peelSeg (show gtLit.head? = some '"' from rfl)
            ((w1 ++ '_' :: w2) ++ (mid ++ (label ++ tdLit))) _ rest hWdq hp3
          have hj0 : j - nm.length - 1 - 1 - ((w1 ++ '_' :: w2) ++ (mid ++ (label ++ tdLit))).length = 0 := by
            omega
          rw [hj0] at hp4
          rw [List.drop_zero] at hp4
          rcases hrest with hre | ⟨r2, hre⟩
          · rw [hre] at hp4
            exact absurd (prefixNilEq hp4) (by decide)
          · rw [hre] at hp4
            rw [show gtLit = '"' :: ['>'] from rfl, consPrefixCons] at hp4
            exact absurd hp4.1 (by decide)

theorem mtch_name_strip (mid U : List Char) :
    mtch (patName mid) (nameLit ++ U) (fun t => some (t, [])) =
      mtch (patStar2 mid) U (fun t => some (t, [])) := by
  rw [patName, mtch_seq, mtch_str_append]

/-- The first `.*` section: the hole between `href="variables/` and `" name="`. -/
theorem mtch_sec_star1 (href nm w1 w2 mid label rest : List Char) (mc : Char)
    (hhrn : ∀ c ∈ href, c ≠ '\n') (hhrq : ∀ c ∈ href, c ≠ '"')
    (hnmn : ∀ c ∈ nm, c ≠ '\n') (hnmq : ∀ c ∈ nm, c ≠ '"') (hnms : ∀ c ∈ nm, c ≠ ' ')
    (h1 : w1 ≠ []) (hw1 : w1.all isWordChar = true)
    (h2 : w2 ≠ []) (hw2 : w2.all isWordChar = true)
    (hmid : mid.head? = some mc) (hmc : isWordChar mc = false)
    (hmdq : ∀ c ∈ mid, c ≠ '"')
    (hl : label ≠ []) (ha : label.all isNameChar = true)
    (hrest : rest = [] ∨ ∃ r2, rest = '\n' :: r2) :
    mtch (patStar1 mid)
      (href ++ (nameLit ++ (nm ++ (gtLit ++
        ((w1 ++ '_' :: w2) ++ (mid ++ (label ++ (tdLit ++ rest))))))))
      (fun t => some (t, [])) =
      some (rest, [(1, w1 ++ '_' :: w2), (2, label)]) := by
  have hRw : (w1 ++ '_' :: w2).all isWordChar = true := by
    rw [List.all_append, List.all_cons]
    rw [hw1, hw2]
    simp [show isWordChar '_' = true from by decide]
  have hWdq : ∀ x ∈ (w1 ++ '_' :: w2) ++ (mid ++ (label ++ tdLit)), x ≠ '"' := by
    intro x hx
    rcases List.mem_append.mp hx with h | h
    · exact ne_of_cls ((List.all_eq_true.mp hRw) x h) (by decide)
    rcases List.mem_append.mp h with h | h
    · exact hmdq x h
    rcases List.mem_append.mp h with h | h
    · exact ne_of_cls ((List.all_eq_true.mp ha) x h) (by decide)
    · exact tdLit_no_dq x h
  have hsplit : href ++ (nameLit ++ (nm ++ (gtLit ++
        ((w1 ++ '_' :: w2) ++ (mid ++ (label ++ (tdLit ++ rest))))))) =
      href ++ ('"' :: (" name=".data ++ ('"' :: (nm ++ ('"' :: ('>' ::
        (((w1 ++ '_' :: w2) ++ (mid ++ (label ++ tdLit))) ++ rest))))))) := by
    simp [nameLit, gtLit, List.append_assoc]
  have hrun_ge : href.length ≤ clsRun .dot
      (href ++ (nameLit ++ (nm ++ (gtLit ++
        ((w1 ++ '_' :: w2) ++ (mid ++ (label ++ (tdLit ++ rest)))))))) :=
    clsRun_ge .dot href _ (mem_all_dot hhrn)
  have hinlen : (" name=".data : List Char).length = 6 := rfl
  have hrun_le : clsRun .dot
      (href ++ (nameLit ++ (nm ++ (gtLit ++
        ((w1 ++ '_' :: w2) ++ (mid ++ (label ++ (tdLit ++ rest)))))))) ≤
      href.length + 8 + nm.length + 2 +
        ((w1 ++ '_' :: w2) ++ (mid ++ (label ++ tdLit))).length := by
    rcases hrest with hre | ⟨r2, hre⟩
    · subst hre
      refine le_trans (clsRun_le_length _ _) ?_
      simp only [List.length_append, List.length_cons, List.length_nil]
      simp [nameLit, gtLit, tdLit]
      omega
    · subst hre
      have heq : href ++ (nameLit ++ (nm ++ (gtLit ++
            ((w1 ++ '_' :: w2) ++ (mid ++ (label ++ (tdLit ++ ('\n' :: r2)))))))) =
          (href ++ ('"' :: (" name=".data ++ ('"' :: (nm ++ ('"' :: ('>' ::
            ((w1 ++ '_' :: w2) ++ (mid ++ (label ++ tdLit)))))))))) ++ '\n' :: r2 := by
        simp [nameLit, gtLit, List.append_assoc]
      have hle := clsRun_le .dot
        (href ++ ('"' :: (" name=".data ++ ('"' :: (nm ++ ('"' :: ('>' ::
          ((w1 ++ '_' :: w2) ++ (mid ++ (label ++ tdLit))))))))))
        '\n' r2 (by decide)
      rw [← heq] at hle
      refine le_trans hle ?_
      simp only [List.length_append, List.length_cons, hinlen]
      omega
  rw [patStar1, mtch_seq, mtch_star]
  apply starLoop_eq
  · refine ⟨href.length, hrun_ge, ?_⟩
    show mtch (patName mid)
      ((href ++ (nameLit ++ (nm ++ (gtLit ++
        ((w1 ++ '_' :: w2) ++ (mid ++ (label ++ (tdLit ++ rest)))))))).drop href.length)
      (fun t => some (t, [])) = _
    rw [List.drop_left, mtch_name_strip]
    exact mtch_sec_star2 nm w1 w2 mid label rest mc hnmn hnmq h1 hw1 h2 hw2 hmid hmc hmdq
      hl ha hrest
  · intro j hj
    rcases eq_or_ne j href.length with hje | hjne
    · subst hje
      right
      show mtch (patName mid)
        ((href ++ (nameLit ++ (nm ++ (gtLit ++
          ((w1 ++ '_' :: w2) ++ (mid ++ (label ++ (tdLit ++ rest)))))))).drop href.length)
        (fun t => some (t, [])) = _
      rw [List.drop_left, mtch_name_strip]
      exact mtch_sec_star2 nm w1 w2 mid label rest mc hnmn hnmq h1 hw1 h2 hw2 hmid hmc hmdq
        hl ha hrest
    · left
      show mtch (patName mid)
        ((href ++ (nameLit ++ (nm ++ (gtLit ++
          ((w1 ++ '_' :: w2) ++ (mid ++ (label ++ (tdLit ++ rest)))))))).drop j)
        (fun t => some (t, [])) = none
      rw [patName, mtch_seq]
      apply mtch_str_not
      intro hp
      rw [hsplit] at hp
      have hnh : nameLit.head? = some '"' := rfl
      obtain ⟨hja, hp1⟩ := peelSeg hnh href j _ hhrq hp
      rcases peelCons hp1 with ⟨hz, _⟩ | ⟨hb1, hp2⟩
      · exact hjne (by omega)
      · obtain ⟨hjb, hp3⟩ := peelSeg hnh (" name=".data) _ _ (by decide) hp2
        rcases peelCons hp3 with ⟨_, hz2⟩ | ⟨hb2, hp4⟩
        · rw [show nameLit = '"' :: " name=\"".data from rfl, consPrefixCons] at hz2
          refine not_prefix_head (show (" name=\"".data : List Char).head? = some ' ' from rfl)
            hnms ?_ hz2.2
          simp
        · obtain ⟨hjc, hp5⟩ := peelSeg hnh nm _ _ hnmq hp4
          rcases peelCons hp5 with ⟨_, hz3⟩ | ⟨hb3, hp6⟩
          · rw [show nameLit = '"' :: (' ' :: "name=\"".data) from rfl, consPrefixCons] at hz3
            rw [consPrefixCons] at hz3
            exact absurd hz3.2.1 (by decide)
          · rcases peelCons hp6 with ⟨_, hz4⟩ | ⟨hb4, hp7⟩
            · rw [show nameLit = '"' :: " name=\"".data from rfl, consPrefixCons] at hz4
              exact absurd hz4.1 (by decide)
            · obtain ⟨hjd, hp8⟩ := peelSeg hnh
                ((w1 ++ '_' :: w2) ++ (mid ++ (label ++ tdLit))) _ rest hWdq hp7
              have hj0 : j - href.length - 1 - (" name=".data : List Char).length - 1 -
                  nm.length - 1 - 1 -
                  ((w1 ++ '_' :: w2) ++ (mid ++ (label ++ tdLit))).length = 0 := by
                rw [hinlen] at *
                omega
              rw [hj0, List.drop_zero] at hp8
              rcases hrest with hre | ⟨r2, hre⟩
              · rw [hre] at hp8
                exact absurd (prefixNilEq hp8) (by decide)
              · rw [hre] at hp8
                rw [show nameLit = '"' :: " name=\"".data from rfl, consPrefixCons] at hp8
                exact absurd hp8.1 (by decide)

/-- Parameters of one well-formed table-row fragment: the href filler, the
name-attribute filler, the two word runs of the identifier, and the label. -/
structure Frag where
  href : List Char
  nm : List Char
  w1 : List Char
  w2 : List Char
  label : List Char

/-- The identifier carried by a fragment. -/
def Frag.id (f : Frag) : List Char := f.w1 ++ '_' :: f.w2

/-- Well-formedness of a fragment's parameters: the fillers avoid the
delimiter characters of the row shape and the identifier and label are
non-empty runs of their classes. -/
def Frag.ok (f : Frag) : Bool :=
  f.href.all (fun c => !(c == '\n') && !(c == '"') && !(c == '<')) &&
  f.nm.all (fun c => !(c == '\n') && !(c == '"') && !(c == ' ') && !(c == '<')) &&
  !f.w1.isEmpty && f.w1.all isWordChar &&
  !f.w2.isEmpty && f.w2.all isWordChar &&
  !f.label.isEmpty && f.label.all isNameChar

/-- The markup text of one row fragment for the given pattern literals. -/
def fragText (pre mid : List Char) (f : Frag) : List Char :=
  pre ++ (f.href ++ (nameLit ++ (f.nm ++ (gtLit ++ (Frag.id f ++ (mid ++ (f.label ++ tdLit)))))))

theorem frag_conds {f : Frag} (h : Frag.ok f = true) :
    (∀ c ∈ f.href, c ≠ '\n') ∧ (∀ c ∈ f.href, c ≠ '"') ∧ (∀ c ∈ f.href, c ≠ '<') ∧
    (∀ c ∈ f.nm, c ≠ '\n') ∧ (∀ c ∈ f.nm, c ≠ '"') ∧ (∀ c ∈ f.nm, c ≠ ' ') ∧
    (∀ c ∈ f.nm, c ≠ '<') ∧
    f.w1 ≠ [] ∧ f.w1.all isWordChar = true ∧ f.w2 ≠ [] ∧ f.w2.all isWordChar = true ∧
    f.label ≠ [] ∧ f.label.all isNameChar = true := by
  rw [Frag.ok] at h
  simp only [Bool.and_eq_true] at h
  obtain ⟨⟨⟨⟨⟨⟨⟨hhr, hnm⟩, hw1e⟩, hw1⟩, hw2e⟩, hw2⟩, hle⟩, hla⟩ := h
  refine ⟨?_, ?_, ?_, ?_, ?_, ?_, ?_, ?_, hw1, ?_, hw2, ?_, hla⟩
  · intro c hc
    have := List.all_eq_true.mp hhr c hc
    simp only [Bool.and_eq_true, Bool.not_eq_true', beq_eq_false_iff_ne, ne_eq] at this
    exact this.1.1
  · intro c hc
    have := List.all_eq_true.mp hhr c hc
    simp only [Bool.and_eq_true, Bool.not_eq_true', beq_eq_false_iff_ne, ne_eq] at this
    exact this.1.2
  · intro c hc
    have := List.all_eq_true.mp hhr c hc
    simp only [Bool.and_eq_true, Bool.not_eq_true', beq_eq_false_iff_ne, ne_eq] at this
    exact this.2
  · intro c hc
    have := List.all_eq_true.mp hnm c hc
    simp only [Bool.and_eq_true, Bool.not_eq_true', beq_eq_false_iff_ne, ne_eq] at this
    exact this.1.1.1
  · intro c hc
    have := List.all_eq_true.mp hnm c hc
    simp only [Bool.and_eq_true, Bool.not_eq_true', beq_eq_false_iff_ne, ne_eq] at this
    exact this.1.1.2
  · intro c hc
    have := List.all_eq_true.mp hnm c hc
    simp only [Bool.and_eq_true, Bool.not_eq_true', beq_eq_false_iff_ne, ne_eq] at this
    exact this.1.2
  · intro c hc
    have := List.all_eq_true.mp hnm c hc
    simp only [Bool.and_eq_true, Bool.not_eq_true', beq_eq_false_iff_ne, ne_eq] at this
    exact this.2
  · intro he
    rw [he] at hw1e
    simp at hw1e
  · intro he
    rw [he] at hw2e
    simp at hw2e
  · intro he
    rw [he] at hle
    simp at hle

/-- A well-formed fragment followed by a newline (or the end of input)
matches the row pattern, with the identifier and the label as the two
captures and the remainder untouched. -/
theorem mtchTop_frag (pre mid : List Char) (mc : Char) (f : Frag) (rest : List Char)
    (hok : Frag.ok f = true)
    (hmid : mid.head? = some mc) (hmc : isWordChar mc = false)
    (hmdq : ∀ c ∈ mid, c ≠ '"')
    (hrest : rest = [] ∨ ∃ r2, rest = '\n' :: r2) :
    mtchTop (mkPattern pre mid) (fragText pre mid f ++ rest) =
      some (rest, [(1, Frag.id f), (2, f.label)]) := by
  have heq : fragText pre mid f ++ rest =
      pre ++ (f.href ++ (nameLit ++ (f.nm ++ (gtLit ++
        ((f.w1 ++ '_' :: f.w2) ++ (mid ++ (f.label ++ (tdLit ++ rest)))))))) := by
    simp [fragText, Frag.id, List.append_assoc]
  rw [heq, mtchTop, mkPattern, mtch_seq, mtch_str_append]
  obtain ⟨c1, c2, _, c4, c5, c6, _, c8, c9, c10, c11, c12, c13⟩ := frag_conds hok
  exact mtch_sec_star1 f.href f.nm f.w1 f.w2 mid f.label rest mc c1 c2 c4 c5 c6 c8 c9 c10
    c11 hmid hmc hmdq c12 c13 hrest

theorem scanFuel_succ_some {p : RE} {s rest : List Char} {caps : List (Nat × List Char)}
    (h : mtchTop p s = some (rest, caps)) (hlt : rest.length < s.length) (f : Nat) :
    scanFuel p (f+1) s = caps :: scanFuel p f rest := by
  simp only [scanFuel, h, hlt, if_true]

theorem scanFuel_succ_none {p : RE} {c : Char} {s : List Char}
    (h : mtchTop p (c :: s) = none) (f : Nat) :
    scanFuel p (f+1) (c :: s) = scanFuel p f s := by
  simp only [scanFuel, h]

theorem mtchTop_str_fail {pre : List Char} {mid s : List Char}
    (h : ¬ pre <+: s) : mtchTop (mkPattern pre mid) s = none := by
  rw [mtchTop, mkPattern, mtch_seq]
  exact mtch_str_not h _

theorem scanFuel_pat_nil (pre mid : List Char) (hpre : pre ≠ []) (f : Nat) :
    scanFuel (mkPattern pre mid) f [] = [] := by
  cases f with
  | zero => rfl
  | succ f2 =>
    simp only [scanFuel, mtchTop_str_fail (fun hp => hpre (prefixNilEq hp))]

theorem intercalate_cons2 (sep a b : List Char) (l : List (List Char)) :
    List.intercalate sep (a :: b :: l) = a ++ (sep ++ List.intercalate sep (b :: l)) := by
  simp [List.intercalate, List.intersperse]

theorem fragText_len (pre mid : List Char) (f : Frag) (hpre : 1 ≤ pre.length) :
    1 ≤ (fragText pre mid f).length := by
  simp only [fragText, List.length_append]
  omega

theorem mtchTop_newline_fail (pre mid : List Char) (hpre : pre.head? = some '<')
    (t : List Char) : mtchTop (mkPattern pre mid) ('\n' :: t) = none := by
  apply mtchTop_str_fail
  intro hp
  cases hpe : pre with
  | nil =>
    rw [hpe] at hpre
    simp at hpre
  | cons pc pt =>
    rw [hpe] at hp hpre
    rw [consPrefixCons] at hp
    rw [List.head?_cons, Option.some.injEq] at hpre
    exact absurd (hpre.symm.trans hp.1) (by decide)

/-- Scanning a newline-separated sequence of well-formed fragments yields one
record per fragment, in document order. -/
theorem scan_fragments (pre mid : List Char) (mc : Char)
    (hpre : pre.head? = some '<')
    (hmid : mid.head? = some mc) (hmc : isWordChar mc = false)
    (hmdq : ∀ c ∈ mid, c ≠ '"') :
    ∀ fs : List Frag, (∀ f ∈ fs, Frag.ok f = true) →
    ∀ fuel, (List.intercalate ['\n'] (fs.map (fragText pre mid))).length < fuel →
    scanFuel (mkPattern pre mid) fuel (List.intercalate ['\n'] (fs.map (fragText pre mid))) =
      fs.map (fun f => [(1, Frag.id f), (2, f.label)]) := by
  have hpren : pre ≠ [] := by
    intro he
    rw [he] at hpre
    simp at hpre
  have hprelen : 1 ≤ pre.length := List.length_pos.mpr hpren
  intro fs
  induction fs with
  | nil =>
    intro _ fuel _
    simp only [List.map_nil]
    rw [show List.intercalate ['\n'] ([] : List (List Char)) = [] from rfl]
    exact scanFuel_pat_nil pre mid hpren fuel
  | cons f fs2 ih =>
    intro hok fuel hfuel
    cases fs2 with
    | nil =>
      simp only [List.map_cons, List.map_nil] at hfuel ⊢
      have hsingle : List.intercalate ['\n'] [fragText pre mid f] = fragText pre mid f := by
        simp [List.intercalate, List.intersperse]
      rw [hsingle] at hfuel ⊢
      have hm := mtchTop_frag pre mid mc f [] (hok f (List.mem_cons_self f []))
        hmid hmc hmdq (Or.inl rfl)
      rw [List.append_nil] at hm
      cases fuel with
      | zero => omega
      | succ f2 =>
        rw [scanFuel_succ_some hm (by simpa using fragText_len pre mid f hprelen) f2,
          scanFuel_pat_nil pre mid hpren f2]
    | cons g gs =>
      simp only [List.map_cons] at hfuel ⊢
      rw [intercalate_cons2] at hfuel ⊢
      rw [show (['\n'] ++ List.intercalate ['\n']
          (fragText pre mid g :: List.map (fragText pre mid) gs)) = ('\n' ::
          List.intercalate ['\n'] (fragText pre mid g :: List.map (fragText pre mid) gs))
        from rfl] at hfuel ⊢
      have hm := mtchTop_frag pre mid mc f
        ('\n' :: List.intercalate ['\n'] (fragText pre mid g :: List.map (fragText pre mid) gs))
        (hok f (List.mem_cons_self f _)) hmid hmc hmdq (Or.inr ⟨_, rfl⟩)
      have hfl := fragText_len pre mid f hprelen
      have hlen1 : ('\n' :: List.intercalate ['\n']
          (fragText pre mid g :: List.map (fragText pre mid) gs)).length <
          (fragText pre mid f ++ ('\n' :: List.intercalate ['\n']
          (fragText pre mid g :: List.map (fragText pre mid) gs))).length := by
        rw [List.length_append]
        omega
      cases fuel with
      | zero => omega
      | succ f2 =>
        rw [scanFuel_succ_some hm hlen1 f2]
        cases f2 with
        | zero =>
          exfalso
          rw [List.length_append, List.length_cons] at hfuel
          omega
        | succ f3 =>
          rw [scanFuel_succ_none (mtchTop_newline_fail pre mid hpre _) f3]
          have hstep := ih (fun q hq => hok q (List.mem_cons_of_mem f hq)) f3 (by
            rw [List.length_append, List.length_cons] at hfuel
            simp only [List.map_cons]
            omega)
          simp only [List.map_cons] at hstep
          rw [hstep]

/-- The leading literal selected by `run` for a given indent. -/
def acsPre (w : Nat) : List Char := if w = 0 then pre0 else preW w

/-- The mid literal selected by `run` for a given indent. -/
def acsMid (w : Nat) : List Char := if w = 0 then mid0 else midW w

theorem acsPattern_eq (w : Nat) : acsPattern w = mkPattern (acsPre w) (acsMid w) := by
  unfold acsPattern acsPre acsMid
  split
  · rfl
  · rfl

theorem acsPre_head (w : Nat) : (acsPre w).head? = some '<' := by
  unfold acsPre
  split
  · rfl
  · rw [show preW w = '<' :: ("tr>\n".data ++ sepOf w ++ "<td><a href=\"variables/".data)
      from rfl]
    rfl

theorem acsMid_head (w : Nat) : (acsMid w).head? = some '<' := by
  unfold acsMid
  split
  · rfl
  · rw [show midW w = '<' :: ("/a></td>\n".data ++ sepOf w ++ "<td>".data) from rfl]
    rfl

theorem no_dq_of_all {l : List Char} (hall : l.all (fun x => !(x == '"')) = true)
    {c : Char} (hc : c ∈ l) : c ≠ '"' := by
  have := List.all_eq_true.mp hall c hc
  simpa using this

theorem acsMid_no_dq (w : Nat) : ∀ c ∈ acsMid w, c ≠ '"' := by
  unfold acsMid
  split
  · decide
  · intro c hc
    unfold midW at hc
    rcases List.mem_append.mp hc with h | h
    · rcases List.mem_append.mp h with h | h
      · exact no_dq_of_all (by decide) h
      · rw [sepOf, List.mem_replicate] at h
        rw [h.2]
        decide
    · exact no_dq_of_all (by decide) h

theorem capsToPair_pair (a b : List Char) : capsToPair [(1, a), (2, b)] = (a, b) := rfl

/-- Claim C1 amended: on a text that is exactly a newline-separated sequence
of well-formed row fragments at the configured indent, `findall` returns one
(identifier, label) record per fragment, in document order. -/
theorem c1_extract_ordered (w : Nat) (fs : List Frag) (hok : ∀ f ∈ fs, Frag.ok f = true) :
    findall (acsPattern w) (List.intercalate ['\n'] (fs.map (fragText (acsPre w) (acsMid w)))) =
      fs.map (fun f => (Frag.id f, f.label)) := by
  rw [acsPattern_eq, findall]
  rw [scan_fragments (acsPre w) (acsMid w) '<' (acsPre_head w) (acsMid_head w) (by decide)
    (acsMid_no_dq w) fs hok _ (Nat.lt_succ_self _)]
  rw [List.map_map]
  apply List.map_congr_left
  intro f _
  rfl

set_option maxRecDepth 100000

/-- Claim C1 counterexample: `rowA` and `rowB` are each single well-formed
row fragments for the indent-0 pattern, yet their concatenation on one line
holds two well-formed fragments and extraction returns a single record,
because the greedy `.*` swallows the first row. -/
theorem c1_counterexample :
    findall (acsPattern 0) rowA = [("B01001_001E".data, "Estimate!!Total".data)] ∧
    findall (acsPattern 0) rowB = [("B01002_002E".data, "Estimate!!Male".data)] ∧
    findall (acsPattern 0) (rowA ++ rowB) =
      [("B01002_002E".data, "Estimate!!Male".data)] := by
  refine ⟨by decide, by decide, by decide⟩

/-- Concrete fragment parameters used as witnesses. -/
def fragA : Frag :=
  { href := "B01001_001E.html".data, nm := "B01001_001E".data, w1 := "B01001".data,
    w2 := "001E".data, label := "Estimate!!Total".data }

/-- Concrete fragment parameters used as witnesses, second row. -/
def fragB : Frag :=
  { href := "B01002_002E.html".data, nm := "B01002_002E".data, w1 := "B01002".data,
    w2 := "002E".data, label := "Estimate!!Male".data }

theorem c1_witness :
    findall (acsPattern 2) (List.intercalate ['\n']
      ([fragA, fragB].map (fragText (acsPre 2) (acsMid 2)))) =
      [fragA, fragB].map (fun f => (Frag.id f, f.label)) :=
  c1_extract_ordered 2 [fragA, fragB] (by decide)

theorem no_ch_of_all {ch : Char} {l : List Char} (hall : l.all (fun x => !(x == ch)) = true)
    {c : Char} (hc : c ∈ l) : c ≠ ch := by
  have := List.all_eq_true.mp hall c hc
  simpa using this

theorem scanFuel_nil_of_no_match {p : RE} :
    ∀ (fuel : Nat) (s : List Char), (∀ j, mtchTop p (s.drop j) = none) →
    scanFuel p fuel s = [] := by
  intro fuel
  induction fuel with
  | zero => intro s _; rfl
  | succ f2 ih =>
    intro s hall
    have h0 := hall 0
    rw [List.drop_zero] at h0
    cases s with
    | nil => simp only [scanFuel, h0]
    | cons c t =>
      simp only [scanFuel, h0]
      refine ih t (fun j => ?_)
      have := hall (j+1)
      rwa [List.drop_succ_cons] at this

theorem probe_at1 {y : Char} {Z : List Char} (hy : y ≠ 't') :
    ¬ ("<tr><".data <+: '<' :: y :: Z) := by
  rw [show ("<tr><".data : List Char) = '<' :: 't' :: 'r' :: '>' :: '<' :: [] from rfl]
  intro h
  rw [consPrefixCons, consPrefixCons] at h
  exact hy h.2.1.symm

theorem probe_at2 {y : Char} {Z : List Char} (hy : y ≠ 'r') :
    ¬ ("<tr><".data <+: '<' :: 't' :: y :: Z) := by
  rw [show ("<tr><".data : List Char) = '<' :: 't' :: 'r' :: '>' :: '<' :: [] from rfl]
  intro h
  rw [consPrefixCons, consPrefixCons, consPrefixCons] at h
  exact hy h.2.2.1.symm

theorem probe_at4 {y : Char} {Z : List Char} (hy : y ≠ '<') :
    ¬ ("<tr><".data <+: '<' :: 't' :: 'r' :: '>' :: y :: Z) := by
  rw [show ("<tr><".data : List Char) = '<' :: 't' :: 'r' :: '>' :: '<' :: [] from rfl]
  intro h
  rw [consPrefixCons, consPrefixCons, consPrefixCons, consPrefixCons, consPrefixCons] at h
  exact hy h.2.2.2.2.1.symm

theorem id_all_word {f : Frag} (hok : Frag.ok f = true) :
    (Frag.id f).all isWordChar = true := by
  obtain ⟨_, _, _, _, _, _, _, _, hw1, _, hw2, _, _⟩ := frag_conds hok
  rw [Frag.id, List.all_append, List.all_cons, hw1, hw2]
  simp [show isWordChar '_' = true from by decide]

theorem probe_blockA1 {X : List Char} : ¬ ("<tr><".data <+: '<' :: ("tr>\n  ".data ++ X)) := by
  intro h
  rw [show ('<' :: ("tr>\n  ".data ++ X) : List Char) =
    '<' :: 't' :: 'r' :: '>' :: '\n' :: ("  ".data ++ X) from rfl] at h
  exact probe_at4 (by decide) h

theorem probe_blockTd {X : List Char} : ¬ ("<tr><".data <+: '<' :: ("td>".data ++ X)) := by
  intro h
  rw [show ('<' :: ("td>".data ++ X) : List Char) = '<' :: 't' :: 'd' :: ('>' :: X) from rfl] at h
  exact probe_at2 (by decide) h

theorem probe_blockHref {Y X : List Char} :
    ¬ ("<tr><".data <+: '<' :: (("a href=\"variables/".data ++ Y) ++ X)) := by
  intro h
  rw [show ('<' :: (("a href=\"variables/".data ++ Y) ++ X) : List Char) =
    '<' :: 'a' :: ((" href=\"variables/".data ++ Y) ++ X) from rfl] at h
  exact probe_at1 (by decide) h

theorem probe_blockSlashA {X : List Char} : ¬ ("<tr><".data <+: '<' :: ("/a>".data ++ X)) := by
  intro h
  rw [show ('<' :: ("/a>".data ++ X) : List Char) = '<' :: '/' :: ("a>".data ++ X) from rfl] at h
  exact probe_at1 (by decide) h

theorem probe_blockSlashTd {X : List Char} :
    ¬ ("<tr><".data <+: '<' :: ("/td>\n  ".data ++ X)) := by
  intro h
  rw [show ('<' :: ("/td>\n  ".data ++ X) : List Char) =
    '<' :: '/' :: ("td>\n  ".data ++ X) from rfl] at h
  exact probe_at1 (by decide) h

theorem probe_blockTdLabel {L X : List Char} :
    ¬ ("<tr><".data <+: '<' :: (("td>".data ++ L) ++ X)) := by
  intro h
  rw [show ('<' :: (("td>".data ++ L) ++ X) : List Char) =
    '<' :: 't' :: 'd' :: (('>' :: L) ++ X) from rfl] at h
  exact probe_at2 (by decide) h

theorem probe_blockClose : ¬ ("<tr><".data <+: '<' :: "/td>".data) := by
  intro h
  rw [show ('<' :: ("/td>".data : List Char)) = '<' :: '/' :: "td>".data from rfl] at h
  exact probe_at1 (by decide) h

/-- No suffix of a 2-indent formatted fragment starts with the probe
`<tr><`, the five-character prefix of the indent-0 pattern. -/
theorem no_probe_in_indent2 (f : Frag) (hok : Frag.ok f = true) :
    ∀ j, ¬ ("<tr><".data <+: (fragText (preW 2) (midW 2) f).drop j) := by
  obtain ⟨_, _, hh3, _, _, _, hn4, _, _, _, _, _, hla⟩ := frag_conds hok
  have hidw := id_all_word hok
  have hprobe : ("<tr><".data : List Char).head? = some '<' := rfl
  have hshape : fragText (preW 2) (midW 2) f =
      '<' :: ("tr>\n  ".data ++ ('<' :: ("td>".data ++ ('<' ::
        (("a href=\"variables/".data ++
          (f.href ++ (nameLit ++ (f.nm ++ (gtLit ++ Frag.id f))))) ++ ('<' ::
        ("/a>".data ++ ('<' :: ("/td>\n  ".data ++ ('<' ::
        (("td>".data ++ f.label) ++ ('<' :: "/td>".data)))))))))))) := by
    simp [fragText, preW, midW, sepOf, nameLit, gtLit, tdLit, List.append_assoc]
  intro j hp
  rw [hshape] at hp
  rcases peelCons hp with ⟨_, hz⟩ | ⟨_, hp1⟩
  · exact probe_blockA1 hz
  · obtain ⟨_, hp2⟩ := peelSeg hprobe ("tr>\n  ".data) _ _ (by decide) hp1
    rcases peelCons hp2 with ⟨_, hz⟩ | ⟨_, hp3⟩
    · exact probe_blockTd hz
    · obtain ⟨_, hp4⟩ := peelSeg hprobe ("td>".data) _ _ (by decide) hp3
      rcases peelCons hp4 with ⟨_, hz⟩ | ⟨_, hp5⟩
      · exact probe_blockHref hz
      · have hB1 : ∀ x ∈ ("a href=\"variables/".data ++
            (f.href ++ (nameLit ++ (f.nm ++ (gtLit ++ Frag.id f))))), x ≠ '<' := by
          intro x hx
          rcases List.mem_append.mp hx with h | h
          · exact no_ch_of_all (by decide) h
          rcases List.mem_append.mp h with h | h
          · exact hh3 x h
          rcases List.mem_append.mp h with h | h
          · exact no_ch_of_all (l := nameLit) (by decide) h
          rcases List.mem_append.mp h with h | h
          · exact hn4 x h
          rcases List.mem_append.mp h with h | h
          · exact no_ch_of_all (l := gtLit) (by decide) h
          · exact ne_of_cls ((List.all_eq_true.mp hidw) x h) (by decide)
        obtain ⟨_, hp6⟩ := peelSeg hprobe _ _ _ hB1 hp5
        rcases peelCons hp6 with ⟨_, hz⟩ | ⟨_, hp7⟩
        · exact probe_blockSlashA hz
        · obtain ⟨_, hp8⟩ := peelSeg hprobe ("/a>".data) _ _ (by decide) hp7
          rcases peelCons hp8 with ⟨_, hz⟩ | ⟨_, hp9⟩
          · exact probe_blockSlashTd hz
          · obtain ⟨_, hp10⟩ := peelSeg hprobe ("/td>\n  ".data) _ _ (by decide) hp9
            rcases peelCons hp10 with ⟨_, hz⟩ | ⟨_, hp11⟩
            · exact probe_blockTdLabel hz
            · have hA5 : ∀ x ∈ ("td>".data ++ f.label), x ≠ '<' := by
                intro x hx
                rcases List.mem_append.mp hx with h | h
                · exact no_ch_of_all (by decide) h
                · exact ne_of_cls ((List.all_eq_true.mp hla) x h) (by decide)
              obtain ⟨_, hp12⟩ := peelSeg hprobe _ _ _ hA5 hp11
              rcases peelCons hp12 with ⟨_, hz⟩ | ⟨_, hp13⟩
              · exact probe_blockClose hz
              · rw [show ("/td>".data : List Char) = "/td>".data ++ [] from
                  (List.append_nil _).symm] at hp13
                obtain ⟨_, hp14⟩ := peelSeg hprobe ("/td>".data) _ [] (by decide) hp13
                rw [List.drop_nil] at hp14
                exact absurd (prefixNilEq hp14) (by decide)

/-- Claim C6 part wrapper: the indent-0 pattern finds no match anywhere in a
2-indent reformatted fragment. -/
theorem findall0_indent2_nil (f : Frag) (hok : Frag.ok f = true) :
    findall (acsPattern 0) (fragText (preW 2) (midW 2) f) = [] := by
  rw [show acsPattern 0 = mkPattern pre0 mid0 from rfl, findall]
  rw [scanFuel_nil_of_no_match _ _ (fun j => mtchTop_str_fail (fun hp =>
    no_probe_in_indent2 f hok j (List.IsPrefix.trans (by decide) hp)))]
  rfl

theorem invTail {s rest : List Char} {caps : List (Nat × List Char)}
    (h : mtch patTail s (fun t => some (t, [])) = some (rest, caps)) :
    s = tdLit ++ rest ∧ caps = [] := by
  rw [patTail] at h
  obtain ⟨t, hs, hk⟩ := mtch_str_some h
  rw [Option.some.injEq] at hk
  obtain ⟨h1, h2⟩ := Prod.mk.injEq _ _ _ _ ▸ hk
  exact ⟨by rw [hs, h1], h2.symm⟩

theorem invGrp2 {s rest : List Char} {caps : List (Nat × List Char)}
    (h : mtch patGrp2 s (fun t => some (t, [])) = some (rest, caps)) :
    ∃ g2, s = g2 ++ (tdLit ++ rest) ∧ caps = [(2, g2)] ∧ g2 ≠ [] ∧
      g2.all isNameChar = true := by
  rw [patGrp2, mtch_seq, grp2, mtch_group, mtch_plus] at h
  obtain ⟨i, hi1, hi, hk⟩ := plusLoop_some _ _ _ _ h
  obtain ⟨r0, hr0, hadd⟩ := Option.map_eq_some'.mp hk
  obtain ⟨t0, hcaps0⟩ := r0
  obtain ⟨hs0, hc0⟩ := invTail hr0
  have hilen : i ≤ s.length := le_trans hi (clsRun_le_length _ _)
  have htake : s.take (s.length - (s.drop i).length) = s.take i := by
    rw [List.length_drop]
    congr 1
    omega
  rw [Prod.mk.injEq] at hadd
  refine ⟨s.take i, ?_, ?_, ?_, clsRun_take _ s i hi⟩
  · rw [← hadd.1, ← hs0]
    exact (List.take_append_drop i s).symm
  · rw [← hadd.2, hc0, htake]
  · intro he
    have := congrArg List.length he
    rw [List.length_take, List.length_nil] at this
    have hilen2 : i ≥ 1 := hi1
    omega

theorem invMid {mid s rest : List Char} {caps : List (Nat × List Char)}
    (h : mtch (patMid mid) s (fun t => some (t, [])) = some (rest, caps)) :
    ∃ g2, s = mid ++ (g2 ++ (tdLit ++ rest)) ∧ caps = [(2, g2)] ∧ g2 ≠ [] ∧
      g2.all isNameChar = true := by
  rw [patMid, mtch_seq] at h
  obtain ⟨t, hs, hk⟩ := mtch_str_some h
  obtain ⟨g2, ht, hcaps, hne, hall⟩ := invGrp2 hk
  exact ⟨g2, by rw [hs, ht], hcaps, hne, hall⟩

theorem take_sub_of_append (M t2 : List Char) :
    (M ++ t2).take ((M ++ t2).length - t2.length) = M := by
  rw [List.length_append, Nat.add_sub_cancel, List.take_left]

theorem invGrp1 {mid s rest : List Char} {caps : List (Nat × List Char)}
    (h : mtch (patGrp1 mid) s (fun t => some (t, [])) = some (rest, caps)) :
    ∃ u v g2, s = (u ++ '_' :: v) ++ (mid ++ (g2 ++ (tdLit ++ rest))) ∧
      caps = [(1, u ++ '_' :: v), (2, g2)] ∧
      u ≠ [] ∧ v ≠ [] ∧ u.all isWordChar = true ∧ v.all isWordChar = true ∧
      g2 ≠ [] ∧ g2.all isNameChar = true := by
  rw [patGrp1, mtch_seq, grp1, mtch_group, mtch_seq, mtch_plus] at h
  obtain ⟨i, hi1, hi, hk⟩ := plusLoop_some _ _ _ _ h
  rw [mtch_seq] at hk
  obtain ⟨t1, ht1, hk2⟩ := mtch_str_some hk
  rw [mtch_plus] at hk2
  obtain ⟨j, hj1, hj, hk3⟩ := plusLoop_some _ _ _ _ hk2
  obtain ⟨r0, hr0, hadd⟩ := Option.map_eq_some'.mp hk3
  obtain ⟨rest0, caps0⟩ := r0
  obtain ⟨g2, hs0, hc0, hg2ne, hg2all⟩ := invMid hr0
  rw [Prod.mk.injEq] at hadd
  have ht1c : s.drop i = '_' :: t1 := ht1
  have hsplit : s = (s.take i ++ '_' :: t1.take j) ++ t1.drop j := by
    rw [List.append_assoc, List.cons_append, List.take_append_drop, ← ht1c,
      List.take_append_drop]
  have hcap : s.take (s.length - (t1.drop j).length) = s.take i ++ '_' :: t1.take j := by
    conv_lhs => rw [hsplit]
    exact take_sub_of_append _ _
  have hile : i ≤ s.length := le_trans hi (clsRun_le_length _ _)
  have hjle : j ≤ t1.length := le_trans hj (clsRun_le_length _ _)
  refine ⟨s.take i, t1.take j, g2, ?_, ?_, ?_, ?_, clsRun_take _ s i hi,
    clsRun_take _ t1 j hj, hg2ne, hg2all⟩
  · rw [← hadd.1, ← hs0]
    exact hsplit
  · rw [← hadd.2, hc0, hcap]
  · intro he
    have := congrArg List.length he
    rw [List.length_take, List.length_nil] at this
    omega
  · intro he
    have := congrArg List.length he
    rw [List.length_take, List.length_nil] at this
    omega

theorem invGt {mid s rest : List Char} {caps : List (Nat × List Char)}
    (h : mtch (patGt mid) s (fun t => some (t, [])) = some (rest, caps)) :
    ∃ u v g2, s = gtLit ++ ((u ++ '_' :: v) ++ (mid ++ (g2 ++ (tdLit ++ rest)))) ∧
      caps = [(1, u ++ '_' :: v), (2, g2)] ∧
      u ≠ [] ∧ v ≠ [] ∧ u.all isWordChar = true ∧ v.all isWordChar = true ∧
      g2 ≠ [] ∧ g2.all isNameChar = true := by
  rw [patGt, mtch_seq] at h
  obtain ⟨t, ht, hk⟩ := mtch_str_some h
  obtain ⟨u, v, g2, hs, hc, h3, h4, h5, h6, h7, h8⟩ := invGrp1 hk
  exact ⟨u, v, g2, by rw [ht, hs], hc, h3, h4, h5, h6, h7, h8⟩

theorem invStar2 {mid s rest : List Char} {caps : List (Nat × List Char)}
    (h : mtch (patStar2 mid) s (fun t => some (t, [])) = some (rest, caps)) :
    ∃ b u v g2,
      s = b ++ (gtLit ++ ((u ++ '_' :: v) ++ (mid ++ (g2 ++ (tdLit ++ rest))))) ∧
      b.all (memCls .dot) = true ∧
      caps = [(1, u ++ '_' :: v), (2, g2)] ∧
      u ≠ [] ∧ v ≠ [] ∧ u.all isWordChar = true ∧ v.all isWordChar = true ∧
      g2 ≠ [] ∧ g2.all isNameChar = true := by
  rw [patStar2, mtch_seq, mtch_star] at h
  obtain ⟨i, hi, hk⟩ := starLoop_some _ _ _ _ h
  obtain ⟨u, v, g2, hs, hc, h3, h4, h5, h6, h7, h8⟩ := invGt hk
  refine ⟨s.take i, u, v, g2, ?_, clsRun_take _ s i hi, hc, h3, h4, h5, h6, h7, h8⟩
  conv_lhs => rw [← List.take_append_drop i s]
  rw [hs]

theorem invName {mid s rest : List Char} {caps : List (Nat × List Char)}
    (h : mtch (patName mid) s (fun t => some (t, [])) = some (rest, caps)) :
    ∃ b u v g2,
      s = nameLit ++ (b ++ (gtLit ++ ((u ++ '_' :: v) ++ (mid ++ (g2 ++ (tdLit ++ rest)))))) ∧
      b.all (memCls .dot) = true ∧
      caps = [(1, u ++ '_' :: v), (2, g2)] ∧
      u ≠ [] ∧ v ≠ [] ∧ u.all isWordChar = true ∧ v.all isWordChar = true ∧
      g2 ≠ [] ∧ g2.all isNameChar = true := by
  rw [patName, mtch_seq] at h
  obtain ⟨t, ht, hk⟩ := mtch_str_some h
  obtain ⟨b, u, v, g2, hs, hb, hc, h3, h4, h5, h6, h7, h8⟩ := invStar2 hk
  exact ⟨b, u, v, g2, by rw [ht, hs], hb, hc, h3, h4, h5, h6, h7, h8⟩

theorem invStar1 {mid s rest : List Char} {caps : List (Nat × List Char)}
    (h : mtch (patStar1 mid) s (fun t => some (t, [])) = some (rest, caps)) :
    ∃ a b u v g2,
      s = a ++ (nameLit ++ (b ++ (gtLit ++ ((u ++ '_' :: v) ++ (mid ++ (g2 ++ (tdLit ++ rest))))))) ∧
      a.all (memCls .dot) = true ∧ b.all (memCls .dot) = true ∧
      caps = [(1, u ++ '_' :: v), (2, g2)] ∧
      u ≠ [] ∧ v ≠ [] ∧ u.all isWordChar = true ∧ v.all isWordChar = true ∧
      g2 ≠ [] ∧ g2.all isNameChar = true := by
  rw [patStar1, mtch_seq, mtch_star] at h
  obtain ⟨i, hi, hk⟩ := starLoop_some _ _ _ _ h
  obtain ⟨b, u, v, g2, hs, hb, hc, h3, h4, h5, h6, h7, h8⟩ := invName hk
  refine ⟨s.take i, b, u, v, g2, ?_, clsRun_take _ s i hi, hb, hc, h3, h4, h5, h6, h7, h8⟩
  conv_lhs => rw [← List.take_append_drop i s]
  rw [hs]

theorem invTop {pre mid s rest : List Char} {caps : List (Nat × List Char)}
    (h : mtchTop (mkPattern pre mid) s = some (rest, caps)) :
    ∃ a b u v g2,
      s = pre ++ (a ++ (nameLit ++ (b ++ (gtLit ++ ((u ++ '_' :: v) ++ (mid ++ (g2 ++ (tdLit ++ rest)))))))) ∧
      a.all (memCls .dot) = true ∧ b.all (memCls .dot) = true ∧
      caps = [(1, u ++ '_' :: v), (2, g2)] ∧
      u ≠ [] ∧ v ≠ [] ∧ u.all isWordChar = true ∧ v.all isWordChar = true ∧
      g2 ≠ [] ∧ g2.all isNameChar = true := by
  rw [mtchTop, mkPattern, mtch_seq] at h
  obtain ⟨t, ht, hk⟩ := mtch_str_some h
  obtain ⟨a, b, u, v, g2, hs, ha, hb, hc, h3, h4, h5, h6, h7, h8⟩ := invStar1 hk
  exact ⟨a, b, u, v, g2, by rw [ht, hs], ha, hb, hc, h3, h4, h5, h6, h7, h8⟩

theorem no_nl_of_all_dot {l : List Char} (h : l.all (memCls .dot) = true) : '\n' ∉ l := by
  intro hm
  have := List.all_eq_true.mp h _ hm
  exact absurd this (by decide)

theorem no_nl_of_all_word {l : List Char} (h : l.all isWordChar = true) : '\n' ∉ l := by
  intro hm
  have := List.all_eq_true.mp h _ hm
  exact absurd this (by decide)

theorem no_nl_of_all_name {l : List Char} (h : l.all isNameChar = true) : '\n' ∉ l := by
  intro hm
  have := List.all_eq_true.mp h _ hm
  exact absurd this (by decide)

theorem match0_single_line {s rest : List Char} {caps : List (Nat × List Char)}
    (h : mtchTop (acsPattern 0) s = some (rest, caps)) :
    ∃ m, s = m ++ rest ∧ '\n' ∉ m := by
  rw [show acsPattern 0 = mkPattern pre0 mid0 from rfl] at h
  obtain ⟨a, b, u, v, g2, hs, ha, hb, hcaps, hu, hv, huw, hvw, hg, hgn⟩ := invTop h
  refine ⟨pre0 ++ (a ++ (nameLit ++ (b ++ (gtLit ++ ((u ++ '_' :: v) ++
    (mid0 ++ (g2 ++ tdLit))))))), ?_, ?_⟩
  · rw [hs]
    simp only [List.append_assoc, List.cons_append]
  · intro hm
    simp only [List.mem_append, List.mem_cons] at hm
    rcases hm with h0 | h1 | h2 | h3 | h4 | (h5 | h6 | h7) | h8 | h9 | h10
    · exact absurd h0 (by decide)
    · exact no_nl_of_all_dot ha h1
    · exact absurd h2 (by decide)
    · exact no_nl_of_all_dot hb h3
    · exact absurd h4 (by decide)
    · exact no_nl_of_all_word huw h5
    · exact absurd h6 (by decide)
    · exact no_nl_of_all_word hvw h7
    · exact absurd h8 (by decide)
    · exact no_nl_of_all_name hgn h9
    · exact absurd h10 (by decide)

theorem matchW_structure {w : Nat} (hw : w ≠ 0) {s rest : List Char}
    {caps : List (Nat × List Char)}
    (h : mtchTop (acsPattern w) s = some (rest, caps)) :
    ∃ a b u v g2,
      s = preW w ++ (a ++ (nameLit ++ (b ++ (gtLit ++ ((u ++ '_' :: v) ++
        (midW w ++ (g2 ++ (tdLit ++ rest)))))))) ∧
      caps = [(1, u ++ '_' :: v), (2, g2)] := by
  rw [acsPattern, if_neg hw] at h
  obtain ⟨a, b, u, v, g2, hs, _, _, hcaps, _⟩ := invTop h
  exact ⟨a, b, u, v, g2, hs, hcaps⟩

theorem preW_shape (w : Nat) :
    preW w = "<tr>".data ++ '\n' :: (sepOf w ++ "<td><a href=\"variables/".data) := by
  rw [preW, List.append_assoc]
  rfl

theorem midW_shape (w : Nat) :
    midW w = "</a></td>".data ++ '\n' :: (sepOf w ++ "<td>".data) := by
  rw [midW, List.append_assoc]
  rfl

theorem sepOf_spaces (w : Nat) : sepOf w = List.replicate w ' ' := rfl

theorem tab_not_in_sepOf (w : Nat) : '\t' ∉ sepOf w := by
  rw [sepOf_spaces]
  intro hm
  have := List.eq_of_mem_replicate hm
  exact absurd this (by decide)

/-- A concrete row fragment used to exercise the indent-sensitivity claim. -/
def fragC6 : Frag := ⟨"x".data, "y".data, "AB".data, "CD".data, "lbl".data⟩

/-- C6: the matching of `run` is exactly configuration-sensitive: any text
matched by the indent-0 pattern contains no newline (every matched row
fragment sits on a single line); a row fragment reformatted with newlines and
2-space indents is matched by the indent-0 pattern at no position of the
text; and for indent w > 0 a matching text necessarily carries the literal
`preW w` and `midW w` blocks, each of which places a line break followed by
exactly w space characters (never tabs) before the inner `<td>` cells. -/
theorem c6_indent_sensitivity :
    (∀ s rest caps, mtchTop (acsPattern 0) s = some (rest, caps) →
      ∃ m, s = m ++ rest ∧ '\n' ∉ m) ∧
    (∀ f, Frag.ok f = true →
      findall (acsPattern 0) (fragText (preW 2) (midW 2) f) = []) ∧
    (∀ w, w ≠ 0 →
      (∀ s rest caps, mtchTop (acsPattern w) s = some (rest, caps) →
        ∃ a b u v g2,
          s = preW w ++ (a ++ (nameLit ++ (b ++ (gtLit ++ ((u ++ '_' :: v) ++
            (midW w ++ (g2 ++ (tdLit ++ rest)))))))) ∧
          caps = [(1, u ++ '_' :: v), (2, g2)]) ∧
      preW w = "<tr>".data ++ '\n' :: (sepOf w ++ "<td><a href=\"variables/".data) ∧
      midW w = "</a></td>".data ++ '\n' :: (sepOf w ++ "<td>".data) ∧
      sepOf w = List.replicate w ' ' ∧ '\t' ∉ sepOf w) :=
  ⟨fun _ _ _ h => match0_single_line h,
   fun f hok => findall0_indent2_nil f hok,
   fun w hw => ⟨fun _ _ _ h => matchW_structure hw h, preW_shape w, midW_shape w,
     sepOf_spaces w, tab_not_in_sepOf w⟩⟩

theorem c6_witness :
    ((∃ m, fragText pre0 mid0 fragC6 = m ++ [] ∧ '\n' ∉ m) ∧
     findall (acsPattern 0) (fragText (preW 2) (midW 2) fragC6) = []) ∧
    ((∃ a b u v g2,
        fragText (preW 2) (midW 2) fragC6 = preW 2 ++ (a ++ (nameLit ++ (b ++ (gtLit ++
          ((u ++ '_' :: v) ++ (midW 2 ++ (g2 ++ (tdLit ++ [])))))))) ∧
        ([(1, "AB_CD".data), (2, "lbl".data)] : List (Nat × List Char)) =
          [(1, u ++ '_' :: v), (2, g2)]) ∧
     '\t' ∉ sepOf 2) :=
  ⟨⟨c6_indent_sensitivity.1 (fragText pre0 mid0 fragC6) []
      [(1, "AB_CD".data), (2, "lbl".data)] (by decide),
    c6_indent_sensitivity.2.1 fragC6 (by decide)⟩,
   ⟨(c6_indent_sensitivity.2.2 2 (by decide)).1 (fragText (preW 2) (midW 2) fragC6) []
      [(1, "AB_CD".data), (2, "lbl".data)] (by decide),
    (c6_indent_sensitivity.2.2 2 (by decide)).2.2.2.2⟩⟩
